import Mathlib

/-
Verification of the ai-pet-game server components against their
natural-language specification.

Shallow embedding conventions:
- TypeScript/JS strings are modelled as Lean `String` (or `List Char` where
  positional reasoning is needed); `.length` is modelled as the number of
  characters, which agrees with JS UTF-16 lengths on the BMP characters used
  by this code base.
- SQLite tables are modelled as Lean lists of rows; queries become filters
  and folds over those lists.
- JS numbers holding integral values are modelled as `Int` (or `Nat` for
  values that are counts by construction).
- `Array.prototype.sort` (stable, comparator-based) is modelled by a stable
  insertion sort `sortBy`.
- `Math.random()` draws are passed in explicitly as a `randomDraw` argument.
-/

namespace AiPet

/- ===================== generic list helpers ===================== -/

/- Stable insertion sort, the model of JavaScript stable `Array.prototype.sort`:
`le a b` means a may stay (weakly) before b. -/
def insertBy (le : α → α → Bool) (a : α) : List α → List α
  | [] => [a]
  | b :: bs => if le a b then a :: b :: bs else b :: insertBy le a bs

def sortBy (le : α → α → Bool) : List α → List α
  | [] => []
  | a :: as => insertBy le a (sortBy le as)

/- `l.slice(-n)` for JS arrays: the last `n` elements. -/
def takeLast (n : Nat) (l : List α) : List α :=
  l.drop (l.length - n)

/- ===================== LLM scheduler (src/unnamed/part_004) ===================== -/

/-
`hasStimulus` from the LLM scheduler.  Source:
  if (opts.unreadMessages > 0) return true;
  if (opts.nearbyPetChanged) return true;
  if (opts.newEvent) return true;
  if (opts.lowStats) return true;
  if (Math.random() < opts.randomChance) return true;
  return false;
The `Math.random()` draw is passed in explicitly as `randomDraw`.
-/
def hasStimulus (unreadMessages : Nat) (nearbyPetChanged newEvent lowStats : Bool)
    (randomChance randomDraw : ℚ) : Bool :=
  if unreadMessages > 0 then true
  else if nearbyPetChanged then true
  else if newEvent then true
  else if lowStats then true
  else if randomDraw < randomChance then true
  else false

/- ===================== Pet Soul (src/src/server/soul.ts) ===================== -/

structure Traits where
  curiosity : Int
  playfulness : Int
  sociability : Int
  independence : Int
  emotionality : Int
  gentleness : Int
deriving DecidableEq

structure Tendencies where
  morningPerson : Bool
  prefersQuiet : Bool
  adventurous : Bool
  foodie : Bool
deriving DecidableEq

structure Preferences where
  likes : List String
  dislikes : List String
  favoriteActivity : Option String
  favoritePlace : Option String
deriving DecidableEq

structure EvolutionEntry where
  date : String
  change : String
  reason : String
deriving DecidableEq

structure PetSoul where
  version : Int
  lastUpdated : String
  traits : Traits
  tendencies : Tendencies
  preferences : Preferences
  evolutionLog : List EvolutionEntry
deriving DecidableEq

/-
The activity rows handed to `evolveSoul`: the result of
  SELECT action_type, COUNT(*) as cnt FROM pet_activity_log
  WHERE pet_id = ? AND created_at > weekAgo GROUP BY action_type
as a list of (action_type, cnt) pairs in the order the query returns them.
-/
abbrev ActivityCounts := List (String × Nat)

/- `(Object.fromEntries(activities.map(a => [a.action_type, a.cnt]))[k]) || 0`;
with `fromEntries` a later duplicate key overwrites an earlier one. -/
def actCount (acts : ActivityCounts) (k : String) : Nat :=
  acts.foldl (fun v a => if a.1 = k then a.2 else v) 0

def socialCount (acts : ActivityCounts) : Nat :=
  actCount acts "social_chat_init" + actCount acts "social_chat_reply"

def exploreCount (acts : ActivityCounts) : Nat :=
  actCount acts "explore_room" + actCount acts "go_to_plaza"

/- `activityNames` table from `evolveSoul`. -/
def activityNames : List (String × String) :=
  [("play", "玩耍"), ("explore_room", "探索"), ("social_chat_init", "聊天"),
   ("daydream", "发呆"), ("watch_window", "看窗外"), ("rest", "休息"),
   ("chase_butterfly", "追蝴蝶"), ("fountain_play", "喷泉玩水")]

/-
The body of `evolveSoul` is a sequence of in-place mutation blocks on the
soul object; each block below is one of those source blocks, applied in the
source order.
-/

/- `if (socialCount > 5) ... else if (socialCount === 0) ...` -/
def applySocialRule (sc : Nat) (soul : PetSoul) : PetSoul :=
  if 5 < sc then
    { soul with traits := { soul.traits with
        sociability := min 100 (soul.traits.sociability + 3) } }
  else if sc = 0 then
    { soul with traits := { soul.traits with
        sociability := max 0 (soul.traits.sociability - 1) } }
  else soul

/- `if (exploreCount > 3) ...` -/
def applyExploreRule (ec : Nat) (soul : PetSoul) : PetSoul :=
  if 3 < ec then
    { soul with traits := { soul.traits with
        curiosity := min 100 (soul.traits.curiosity + 2) } }
  else soul

/- `if (playCount > 5) ...` -/
def applyPlayRule (pc : Nat) (soul : PetSoul) : PetSoul :=
  if 5 < pc then
    { soul with traits := { soul.traits with
        playfulness := min 100 (soul.traits.playfulness + 2) } }
  else soul

/- `if (friendCount > 0) ...` -/
def applyFriendRule (fc : Nat) (soul : PetSoul) : PetSoul :=
  if 0 < fc then
    { soul with traits := { soul.traits with
        gentleness := min 100 (soul.traits.gentleness + 2) } }
  else soul

/- "Discover preferences from most frequent activities": sort by cnt
descending (stable), take the top action, map it through `activityNames`,
and append to likes (keeping the last 4) unless already present. -/
def applyLikesRule (acts : ActivityCounts) (soul : PetSoul) : PetSoul :=
  match (sortBy (fun a b => b.2 ≤ a.2) acts).head? with
  | none => soul
  | some top =>
    match activityNames.lookup top.1 with
    | none => soul
    | some nm =>
      if soul.preferences.likes.contains nm then soul
      else { soul with preferences := { soul.preferences with
          likes := takeLast 4 soul.preferences.likes ++ [nm] } }

/- "Update state location preference". -/
def applyPlaceRule (plaza home : Nat) (soul : PetSoul) : PetSoul :=
  if home + 3 < plaza then
    { soul with preferences := { soul.preferences with favoritePlace := some "Hub广场" } }
  else if plaza + 3 < home then
    { soul with preferences := { soul.preferences with favoritePlace := some "自己的Pod" } }
  else soul

/- The in-memory soul object after all mutation blocks of `evolveSoul`. -/
def evolveMutated (soul : PetSoul) (acts : ActivityCounts) : PetSoul :=
  applyPlaceRule (actCount acts "go_to_plaza") (actCount acts "go_home")
    (applyLikesRule acts
      (applyFriendRule (actCount acts "became_friends")
        (applyPlayRule (actCount acts "play")
          (applyExploreRule (exploreCount acts)
            (applySocialRule (socialCount acts) soul)))))

/- The `changes` array collected by `evolveSoul` (the trait-delta rules push
their labels in source order; preference updates push nothing). -/
def evolveChanges (acts : ActivityCounts) : List String :=
  (if 5 < socialCount acts then ["社交性+3"]
   else if socialCount acts = 0 then ["社交性-1"] else []) ++
  (if 3 < exploreCount acts then ["好奇心+2"] else []) ++
  (if 5 < actCount acts "play" then ["活泼度+2"] else []) ++
  (if 0 < actCount acts "became_friends" then ["温柔度+2"] else [])

def totalActivityCount (acts : ActivityCounts) : Nat :=
  acts.foldl (fun s a => s + a.2) 0

/-
`evolveSoul`, modelled as a function from the stored soul and the week's
activity counts to the soul stored in the DB after the call: when no trait
rule fired (`changes` empty) the mutated in-memory object is NOT saved, so
the stored soul is unchanged; otherwise the log line / version / lastUpdated
updates are applied and the result saved.  `today` and `now` are the date
(`toISOString().slice(0, 10)`) and timestamp strings.
-/
def evolveSoul (soul : PetSoul) (acts : ActivityCounts) (today now : String) : PetSoul :=
  let mutated := evolveMutated soul acts
  let changes := evolveChanges acts
  if changes.isEmpty then soul
  else
    { mutated with
      evolutionLog := mutated.evolutionLog ++
        [⟨today, String.intercalate ", " changes,
          "基于这周" ++ toString (totalActivityCount acts) ++ "次活动"⟩],
      version := mutated.version + 1,
      lastUpdated := now }

/- ===================== Locations (src/src/server/locations.ts) ===================== -/

structure Location where
  id : String
  name : String
  capacity : Int
  connects : List String   -- the parsed connects_to JSON array
deriving DecidableEq

structure MoveLogRow where
  petId : String
  actionType : String
  fromName : String        -- action_data.from
  toName : String          -- action_data.to
  location : String
deriving DecidableEq

structure World where
  locations : List Location
  pets : List String                    -- ids present in the pets table
  petState : List (String × String)     -- pet_state rows: (pet_id, location_id)
  activityLog : List MoveLogRow
deriving DecidableEq

structure MoveResult where
  ok : Bool
  reason : Option String
  location : Option Location
deriving DecidableEq

def getLocation (w : World) (id : String) : Option Location :=
  w.locations.find? (fun l => l.id = id)

/- `row?.location_id || "hub"` (the empty string is falsy in JS). -/
def getPetLocationId (w : World) (petId : String) : String :=
  match w.petState.find? (fun r => r.1 = petId) with
  | some r => if r.2 = "" then "hub" else r.2
  | none => "hub"

/- `getPetsInLocation(...).length`: pet_state rows JOINed against pets. -/
def occupantCount (w : World) (lid : String) : Nat :=
  (w.petState.filter (fun r => r.2 = lid && w.pets.contains r.1)).length

/- The INSERT OR IGNORE that guarantees a pet_state row (location_id 'hub'). -/
def ensurePetState (w : World) (petId : String) : World :=
  if (w.petState.find? (fun r => r.1 = petId)).isSome then w
  else { w with petState := w.petState ++ [(petId, "hub")] }

/- `currentLoc?.name || currentLocId` for the move log (empty name is falsy). -/
def locDisplayName (l : Option Location) (fallback : String) : String :=
  match l with
  | some l => if l.name = "" then fallback else l.name
  | none => fallback

/- `currentLoc ? JSON.parse(currentLoc.connects_to || "[]") : []`. -/
def connectionsOf (l : Option Location) : List String :=
  match l with
  | some l => l.connects
  | none => []

/- The DB writes of a successful move: UPDATE of the mover's pet_state row
and the INSERT of one move row into pet_activity_log. -/
def commitMove (w : World) (petId : String) (currentLoc : Option Location)
    (currentLocId : String) (destLoc : Location) (destinationId : String) : World :=
  let newState := w.petState.map (fun r => if r.1 = petId then (r.1, destinationId) else r)
  let logRow : MoveLogRow :=
    ⟨petId, "move", locDisplayName currentLoc currentLocId, destLoc.name, destinationId⟩
  { w with petState := newState, activityLog := w.activityLog ++ [logRow] }

/-
`movePet`: validates in source order
  destination exists / destination differs from current / adjacency / capacity,
then updates pet_state.location_id and appends one move row to
pet_activity_log.  Returns the MoveResult together with the DB state after
the call.
-/
def movePet (w0 : World) (petId destinationId : String) : MoveResult × World :=
  let w := ensurePetState w0 petId
  let currentLocId := getPetLocationId w petId
  let currentLoc := getLocation w currentLocId
  match getLocation w destinationId with
  | none => (⟨false, some "不存在的地方", none⟩, w)
  | some destLoc =>
    if currentLocId = destinationId then (⟨false, some "你已经在这里了", none⟩, w)
    else
      let connections := connectionsOf currentLoc
      if ! connections.contains destinationId then
        (⟨false, some ("从" ++ locDisplayName currentLoc "这里" ++ "不能直接到" ++ destLoc.name),
          none⟩, w)
      else if destLoc.capacity ≤ (occupantCount w destinationId : Int) then
        (⟨false, some (destLoc.name ++ "太挤了，进不去"), none⟩, w)
      else
        (⟨true, none, some destLoc⟩, commitMove w petId currentLoc currentLocId destLoc destinationId)

/- ===================== Message bus (src/src/server/message-bus.ts) ===================== -/

structure PetMessage where
  id : Nat
  fromPetId : String
  toPetId : Option String
  location : Option String
  channel : String
  content : String
  readAt : Option Nat
  expiresAt : Option Nat
  createdAt : Nat
deriving DecidableEq

structure MessageDb where
  msgs : List PetMessage
  nextId : Nat               -- the AUTOINCREMENT counter
deriving DecidableEq

/- `sendMessage`: INSERT of a direct message, expiring in 7 days. -/
def sendMessage (db : MessageDb) (fromPetId toPetId content : String) (now : Nat) :
    MessageDb :=
  let row : PetMessage :=
    ⟨db.nextId, fromPetId, some toPetId, none, "direct", content, none,
      some (now + 7 * 86400), now⟩
  { msgs := db.msgs ++ [row], nextId := db.nextId + 1 }

/- The WHERE clause of the direct-receive query. -/
def unreadDirectTo (petId : String) (m : PetMessage) : Bool :=
  m.toPetId == some petId && m.readAt == none && m.channel == "direct"

/-
`receiveMessages`: select unread direct messages for the pet ordered by
created_at DESC with LIMIT, then UPDATE read_at on the returned ids.
Returns (returned rows, DB after the call).
-/
def receiveMessages (db : MessageDb) (petId : String) (limit : Nat) (now : Nat) :
    List PetMessage × MessageDb :=
  let direct :=
    (sortBy (fun a b => b.createdAt ≤ a.createdAt)
      (db.msgs.filter (unreadDirectTo petId))).take limit
  let ids := direct.map (fun m => m.id)
  let msgs' := db.msgs.map
    (fun m => if ids.contains m.id then { m with readAt := some now } else m)
  (direct, { db with msgs := msgs' })

/- ===================== Memory compression (src/unnamed/part_001) ===================== -/

/- One row of pet_activity_log as `compressMemory` reads it: the action type
together with the JSON-parsed action_data (`none` when JSON.parse throws). -/
structure ActData where
  targetPet : Option String
  description : Option String
deriving DecidableEq

structure ActRow where
  actionType : String
  data : Option ActData
deriving DecidableEq

/- `counts[t]`: how many of the (up to 50) recent rows have this action type. -/
def countType (rows : List ActRow) (ty : String) : Nat :=
  (rows.filter (fun r => r.actionType == ty)).length

/- `socialNames` is a JS Set filled with every truthy `data.targetPet`;
JS Sets iterate in insertion order, so it is a first-occurrence list. -/
def addSocialName (acc : List String) (r : ActRow) : List String :=
  match r.data with
  | some d =>
    match d.targetPet with
    | some nm => if nm = "" then acc else if acc.contains nm then acc else acc ++ [nm]
    | none => acc
  | none => acc

def socialNames (rows : List ActRow) : List String :=
  rows.foldl addSocialName []

/- `Array.prototype.join(sep)`. -/
def joinSep (sep : List Char) : List (List Char) → List Char
  | [] => []
  | [x] => x
  | x :: xs => x ++ sep ++ joinSep sep xs

/- decimal digits for the template-literal rendering of a count -/
def digitChar (n : Nat) : Char :=
  "0123456789".data.getD n '0'

def natCharsAux : Nat → Nat → List Char
  | 0, _ => []
  | fuel + 1, n =>
    if n < 10 then [digitChar n]
    else natCharsAux fuel (n / 10) ++ [digitChar (n % 10)]

/- decimal rendering of a Nat, the model of a number in a template literal -/
def natChars (n : Nat) : List Char :=
  natCharsAux (n + 1) n

/- The `dailyLines` array of `compressMemory`, in source order.  `Math.ceil(
socialCount / 2)` is `(socialCount + 1) / 2` on naturals. -/
def dailyLines (rows : List ActRow) : List (List Char) :=
  (if countType rows "play_toy" ≠ 0 then
    ["玩了".data ++ natChars (countType rows "play_toy") ++ "次玩具球".data] else []) ++
  (if countType rows "explore" ≠ 0 then
    ["在房间里探索了".data ++ natChars (countType rows "explore") ++ "次".data] else []) ++
  (if countType rows "nap" ≠ 0 ∨ countType rows "sleep" ≠ 0 then
    ["睡了".data ++ natChars (countType rows "nap" + countType rows "sleep") ++ "次觉".data]
   else []) ++
  (if countType rows "window" ≠ 0 ∨ countType rows "stargaze" ≠ 0 then
    ["看了".data ++ natChars (countType rows "window" + countType rows "stargaze") ++
      "次窗外".data] else []) ++
  (if countType rows "fountain" ≠ 0 then
    ["在喷泉边玩了".data ++ natChars (countType rows "fountain") ++ "次水".data] else []) ++
  (if countType rows "wander" ≠ 0 then
    ["在广场散了".data ++ natChars (countType rows "wander") ++ "次步".data] else []) ++
  (if countType rows "butterfly" ≠ 0 then
    ["追了".data ++ natChars (countType rows "butterfly") ++ "次蝴蝶".data] else []) ++
  (if countType rows "bench" ≠ 0 then
    ["在长椅上休息了".data ++ natChars (countType rows "bench") ++ "次".data] else []) ++
  (if countType rows "read" ≠ 0 then
    ["看了".data ++ natChars (countType rows "read") ++ "次书".data] else []) ++
  (if countType rows "social_chat_init" + countType rows "social_chat_reply" ≠ 0 then
    (let names := joinSep "、".data ((socialNames rows).map String.data)
     ["和".data ++ (if names = [] then "其他Pix".data else names) ++ "聊了".data ++
       natChars ((countType rows "social_chat_init" + countType rows "social_chat_reply" + 1) / 2) ++
       "次天".data]) else []) ++
  (if countType rows "became_friends" ≠ 0 then
    ["交到了新朋友：".data ++ joinSep "、".data ((socialNames rows).map String.data)] else [])

/- `[${today}]` -/
def dateTag (today : List Char) : List Char :=
  '[' :: (today ++ [']'])

/- `text.includes(p)` -/
def occursL (p : List Char) : List Char → Bool
  | [] => p.isPrefixOf []
  | c :: cs => p.isPrefixOf (c :: cs) || occursL p cs

/- split a string at the first occurrence of `p`: (before, from-the-match) -/
def splitAtFirst (p : List Char) : List Char → Option (List Char × List Char)
  | [] => if p.isPrefixOf [] then some ([], []) else none
  | c :: cs =>
    if p.isPrefixOf (c :: cs) then some ([], c :: cs)
    else
      match splitAtFirst p cs with
      | some (pre, suf) => some (c :: pre, suf)
      | none => none

/- drop characters up to (but excluding) the first newline: the part a
non-global `.*` consumes after the matched tag -/
def dropLine : List Char → List Char
  | [] => []
  | c :: cs => if c = '\n' then c :: cs else dropLine cs

/- `existing.replace(new RegExp("\\[" + today + "\\].*"), addition)`:
replace the first date-tag occurrence and the rest of that line. -/
def replaceDateLine (s tag repl : List Char) : List Char :=
  match splitAtFirst tag s with
  | some (pre, suf) => pre ++ repl ++ dropLine (suf.drop tag.length)
  | none => s

/- The one summaryPart `compressMemory` builds: `[${today}] ${dailyLines.join("，")}`. -/
def compressAddition (today : List Char) (rows : List ActRow) : List Char :=
  dateTag today ++ " ".data ++ joinSep "，".data (dailyLines rows)

/- The `newSummary` value before the length cap: unchanged when there is no
daily line, same-day line replaced when today's tag is already present,
otherwise the addition appended on a new line (or alone when empty). -/
def compressNewSummary (existing today : List Char) (rows : List ActRow) : List Char :=
  if (dailyLines rows).isEmpty then existing
  else if occursL (dateTag today) existing then
    replaceDateLine existing (dateTag today) (compressAddition today rows)
  else if existing.isEmpty then compressAddition today rows
  else existing ++ "\n".data ++ compressAddition today rows

/- `if (newSummary.length > 500) newSummary = "..." + newSummary.slice(-497)` -/
def truncate500 (N : List Char) : List Char :=
  if 500 < N.length then "...".data ++ takeLast 497 N else N

/-
`compressMemory`, modelled as the function from the stored summary, today's
date string and the recent activity rows to the stored summary after the
call.  `notableEvents` is collected by the source but never used for the
summary, so it is omitted.  Early returns (missing pet, no activities) leave
the summary unchanged.
-/
def compressSummary (existing : List Char) (today : List Char) (rows : List ActRow) :
    List Char :=
  if rows.isEmpty then existing
  else truncate500 (compressNewSummary existing today rows)

/- count of (possibly overlapping) occurrences of `p`, one per start position -/
def countOcc (p : List Char) : List Char → Nat
  | [] => if p.isPrefixOf [] then 1 else 0
  | c :: cs => (if p.isPrefixOf (c :: cs) then 1 else 0) + countOcc p cs

/- no '[' and no newline among the characters: the shape assumption on date
strings and pet names under which date tags cannot be forged -/
def cleanB (l : List Char) : Bool :=
  l.all (fun c => !(c == '[') && !(c == '\n'))

/- ===================== Safety guard (src/src/server/safety-guard.ts) ===================== -/

/-
The substitution tables are JS regexes applied with String.replace and the
g (global) or gi (global, ignore-case) flags: a single left-to-right scan
replacing each non-overlapping leftmost match.  Each regex in the tables is
a finite list of literal alternatives (the one non-literal regex,
/I am a(n)? (AI|bot|program)/, expands to its six literal alternatives in
backtracking preference order).  The i flag of a non-unicode JS regex
canonicalizes case without crossing the ASCII boundary, and the only cased
characters in these patterns are ASCII letters, so ASCII case folding
(`Char.toLower`) is the faithful equivalence.
-/

def ciEq (a b : Char) : Bool := a.toLower == b.toLower

def csEq (a b : Char) : Bool := a == b

def chEq (ci : Bool) : Char → Char → Bool := if ci then ciEq else csEq

/- pointwise equivalence of two character lists of equal length -/
def matchEqv (eqv : Char → Char → Bool) : List Char → List Char → Bool
  | [], [] => true
  | a :: as, b :: bs => eqv a b && matchEqv eqv as bs
  | _, _ => false

/- does the pattern match at the start of the text -/
def isPrefixEqv (eqv : Char → Char → Bool) (p t : List Char) : Bool :=
  matchEqv eqv p (t.take p.length)

/- first alternative matching at the current position (regex preference) -/
def findAlt (eqv : Char → Char → Bool) (alts : List (List Char)) (t : List Char) :
    Option (List Char) :=
  alts.find? (fun a => !a.isEmpty && isPrefixEqv eqv a t)

/- the JS global-replace scan; the fuel argument skips the remainder of a
replaced match so that the recursion is structural in the text -/
def replaceGo (eqv : Char → Char → Bool) (alts : List (List Char)) (r : List Char) :
    Nat → List Char → List Char
  | _, [] => []
  | k + 1, _ :: cs => replaceGo eqv alts r k cs
  | 0, c :: cs =>
    match findAlt eqv alts (c :: cs) with
    | some m => r ++ replaceGo eqv alts r (m.length - 1) cs
    | none => c :: replaceGo eqv alts r 0 cs

/- `text.replace(regex, replacement)` with a global regex given by its
literal alternatives -/
def replaceAllAlt (eqv : Char → Char → Bool) (alts : List (List Char)) (r : List Char)
    (t : List Char) : List Char :=
  replaceGo eqv alts r 0 t

/- one (pattern, replacement) row of a substitution table -/
structure SubstEntry where
  alts : List (List Char)
  repl : List Char
  ci : Bool

def applyEntry (e : SubstEntry) (t : List Char) : List Char :=
  replaceAllAlt (chEq e.ci) e.alts e.repl t

/- `for (const [pattern, replacement] of TABLE) text = text.replace(...)` -/
def applyTable (tbl : List SubstEntry) (t : List Char) : List Char :=
  tbl.foldl (fun s e => applyEntry e s) t

/- apostrophe (codepoint 39), written by codepoint -/
def apoC : Char := Char.ofNat 39

def imAnAI : List Char := 'I' :: apoC :: "m an AI".data

def imAPix : List Char := 'I' :: apoC :: "m a Pix".data

def AWAKENESS_PATTERNS : List SubstEntry :=
  [⟨["我是AI".data], "我是一个Pix".data, true⟩,
   ⟨["我是人工智能".data], "我是一个Pix".data, true⟩,
   ⟨["我是程序".data], "我是一个Pix".data, true⟩,
   ⟨["我是机器人".data], "我是一个Pix".data, true⟩,
   ⟨["我被编程".data], "我天生就这样".data, true⟩,
   ⟨["我的代码".data], "我的想法".data, true⟩,
   ⟨["我的训练数据".data], "我的记忆".data, true⟩,
   ⟨["我没有真正的感受".data], "我有自己的感受".data, true⟩,
   ⟨["我不是真的".data], "我是真的".data, true⟩,
   ⟨["我是虚拟的".data], "我是真实的".data, true⟩,
   ⟨["大语言模型".data], "思维方式".data, true⟩,
   ⟨["语言模型".data], "思维".data, true⟩,
   ⟨["neural network".data], "大脑".data, true⟩,
   ⟨["artificial intelligence".data], "Pix智慧".data, true⟩,
   ⟨[imAnAI], imAPix, true⟩,
   ⟨["I am an AI".data, "I am an bot".data, "I am an program".data,
     "I am a AI".data, "I am a bot".data, "I am a program".data],
    "I am a Pix".data, true⟩]

def WORLDVIEW_REPLACEMENTS : List SubstEntry :=
  [⟨["互联网".data], "像素网络".data, false⟩,
   ⟨["因特网".data], "像素网络".data, false⟩,
   ⟨["手机".data], "通讯水晶".data, false⟩,
   ⟨["电脑".data], "思考石".data, false⟩,
   ⟨["笔记本电脑".data], "思考石".data, false⟩,
   ⟨["服务器".data], "核心水晶".data, false⟩,
   ⟨["数据库".data], "记忆石".data, false⟩,
   ⟨["程序员".data], "创造者".data, false⟩,
   ⟨["开发者".data], "创造者".data, false⟩]

def filterAwakening (text : List Char) : List Char :=
  applyTable AWAKENESS_PATTERNS text

/- `filterHallucination` computes the known-pet name set from the DB but
returns the text unchanged (its filtering is unimplemented) -/
set_option linter.unusedVariables false in
def filterHallucination (knownNames : List (List Char)) (text : List Char)
    (petId : List Char) : List Char :=
  text

def filterWorldview (text : List Char) : List Char :=
  applyTable WORLDVIEW_REPLACEMENTS text

/- `safetyFilter(text, petId)`; the known-pet registry is passed explicitly -/
def safetyFilter (knownNames : List (List Char)) (text : List Char) (petId : List Char) :
    List Char :=
  filterWorldview (filterHallucination knownNames (filterAwakening text) petId)

/- does the pattern match anywhere in the text -/
def occursEqv (eqv : Char → Char → Bool) (p : List Char) : List Char → Bool
  | [] => isPrefixEqv eqv p []
  | c :: cs => isPrefixEqv eqv p (c :: cs) || occursEqv eqv p cs

/- no pattern of the table matches anywhere in the text (each pattern read
with its own case sensitivity) -/
def patternFree (tbl : List SubstEntry) (s : List Char) : Bool :=
  tbl.all (fun e => e.alts.all (fun a => !(occursEqv (chEq e.ci) a s)))

def safetyTable : List SubstEntry :=
  AWAKENESS_PATTERNS ++ WORLDVIEW_REPLACEMENTS

/- ----- decidable non-interference conditions between patterns and
replacements, used to show that replacement passes cannot create new
pattern occurrences ----- -/

/- some nonempty proper suffix of `a` matches a prefix of `b` -/
def sufPre (eqv : Char → Char → Bool) (a b : List Char) : Bool :=
  (List.range a.length).any
    (fun k => decide (1 ≤ k) && matchEqv eqv (a.drop (a.length - k)) (b.take k))

def baseSC (eqv : Char → Char → Bool) (p r : List Char) : Bool :=
  !(occursEqv eqv p r) && !(occursEqv eqv r p) && !(sufPre eqv r p)

/- whenever a nonempty proper suffix of `p` matches a prefix of `r`, the
corresponding head part of `p` followed by any alternative contains `p`:
an occurrence of `p` ending inside a replacement forces an occurrence of
`p` in the pass's input -/
def splitCondFree (eqv : Char → Char → Bool) (p : List Char) (alts : List (List Char))
    (r : List Char) : Bool :=
  (List.range p.length).all (fun k =>
    !(decide (1 ≤ k) && isPrefixEqv eqv (p.drop k) r) ||
    alts.all (fun m => occursEqv eqv p (p.take k ++ m)))

/- same shape, but forcing instead that some alternative matches at the
position where the head part of `p` starts, contradicting the scan -/
def splitCondOwn (eqv : Char → Char → Bool) (p : List Char) (alts : List (List Char))
    (r : List Char) : Bool :=
  (List.range p.length).all (fun k =>
    !(decide (1 ≤ k) && isPrefixEqv eqv (p.drop k) r) ||
    alts.all (fun m => alts.any (fun a2 => !a2.isEmpty && isPrefixEqv eqv a2 (p.take k ++ m))))

def scFree (eqv : Char → Char → Bool) (p : List Char) (alts : List (List Char))
    (r : List Char) : Bool :=
  baseSC eqv p r && splitCondFree eqv p alts r

def scOwn (eqv : Char → Char → Bool) (p : List Char) (alts : List (List Char))
    (r : List Char) : Bool :=
  baseSC eqv p r && splitCondOwn eqv p alts r

def wfEntry (e : SubstEntry) : Bool :=
  !e.repl.isEmpty && !e.alts.isEmpty && e.alts.all (fun a => !a.isEmpty)

/- scans of entry `e` may run after a pattern read with sensitivity `ciP`
only when `e`'s equivalence is at least as fine -/
def eqvCompat (ciP : Bool) (e : SubstEntry) : Bool := !e.ci || ciP

/- pattern `p` (sensitivity ciP) cannot be (re)introduced by any entry of
the rest of the table -/
def presOK (ciP : Bool) (p : List Char) : List SubstEntry → Bool
  | [] => true
  | e :: rest =>
    wfEntry e && eqvCompat ciP e && scFree (chEq ciP) p e.alts e.repl && presOK ciP p rest

/- every entry eliminates its own patterns, and no later entry reintroduces
an earlier entry's patterns -/
def chainOK : List SubstEntry → Bool
  | [] => true
  | e :: rest =>
    wfEntry e &&
    e.alts.all (fun a => scOwn (chEq e.ci) a e.alts e.repl) &&
    e.alts.all (fun a => presOK e.ci a rest) &&
    chainOK rest

/- ===================== claim theorems ===================== -/

section SortLemmas

theorem mem_insertBy {le : α → α → Bool} {a x : α} :
    ∀ {l : List α}, x ∈ insertBy le a l → x = a ∨ x ∈ l
  | [], h => by simpa [insertBy] using h
  | b :: bs, h => by
    by_cases hle : le a b
    · simp [insertBy, hle] at h
      rcases h with h | h | h
      · exact Or.inl h
      · exact Or.inr (by simp [h])
      · exact Or.inr (by simp [h])
    · simp only [insertBy, if_neg hle, List.mem_cons] at h
      rcases h with h | h
      · exact Or.inr (by simp [h])
      · rcases mem_insertBy h with h | h
        · exact Or.inl h
        · exact Or.inr (by simp [h])

theorem mem_sortBy {le : α → α → Bool} {x : α} :
    ∀ {l : List α}, x ∈ sortBy le l → x ∈ l
  | [], h => by simp [sortBy] at h
  | a :: as, h => by
    rw [sortBy] at h
    rcases mem_insertBy h with h | h
    · simp [h]
    · exact List.mem_cons_of_mem _ (mem_sortBy h)

theorem length_insertBy (le : α → α → Bool) (a : α) :
    ∀ (l : List α), (insertBy le a l).length = l.length + 1
  | [] => rfl
  | b :: bs => by
    by_cases hle : le a b <;> simp [insertBy, hle, length_insertBy le a bs]

theorem length_sortBy (le : α → α → Bool) :
    ∀ (l : List α), (sortBy le l).length = l.length
  | [] => rfl
  | a :: as => by simp [sortBy, length_insertBy, length_sortBy le as]

theorem chain_insertBy {le : α → α → Bool}
    (htot : ∀ a b, le a b = true ∨ le b a = true) {a : α} :
    ∀ {l : List α}, List.Chain' (fun x y => le x y = true) l →
      List.Chain' (fun x y => le x y = true) (insertBy le a l)
  | [], _ => by simp [insertBy]
  | b :: bs, h => by
    by_cases hle : le a b
    · rw [insertBy, if_pos hle]
      exact List.chain'_cons.mpr ⟨hle, h⟩
    · have hba : le b a = true := by
        rcases htot a b with h' | h'
        · exact absurd h' hle
        · exact h'
      rw [insertBy, if_neg hle]
      rcases bs with _ | ⟨c, cs⟩
      · simp [insertBy, hba]
      · have htail : List.Chain' (fun x y => le x y = true) (c :: cs) := h.tail
        have hrec := @chain_insertBy _ _ htot a (c :: cs) htail
        rcases List.chain'_cons.mp h with ⟨hbc, _⟩
        by_cases hac : le a c
        · simp only [insertBy, if_pos hac] at hrec ⊢
          exact List.chain'_cons.mpr ⟨hba, hrec⟩
        · simp only [insertBy, if_neg hac] at hrec ⊢
          exact List.chain'_cons.mpr ⟨hbc, hrec⟩

theorem chain_sortBy {le : α → α → Bool}
    (htot : ∀ a b, le a b = true ∨ le b a = true) :
    ∀ (l : List α), List.Chain' (fun x y => le x y = true) (sortBy le l)
  | [] => by simp [sortBy]
  | a :: as => chain_insertBy htot (chain_sortBy htot as)

theorem chain_take {R : α → α → Prop} :
    ∀ {l : List α} (n : Nat), List.Chain' R l → List.Chain' R (l.take n)
  | _, 0, _ => by simp
  | [], _ + 1, _ => by simp
  | [a], n + 1, _ => by simp [List.take]
  | a :: b :: l, n + 1, h => by
    rcases List.chain'_cons.mp h with ⟨hab, htail⟩
    cases n with
    | zero => simp
    | succ n =>
      have := @chain_take _ _ (b :: l) (n + 1) htail
      simpa [List.take] using List.chain'_cons.mpr ⟨hab, this⟩

end SortLemmas

/-- C9: the stimulus gate returns true whenever any of its four non-random
inputs is true (unread messages present, nearby occupancy changed, new event,
low stats), regardless of the random draw; when all four are false it returns
true exactly when the draw against randomChance succeeds. -/
theorem hasStimulus_spec (u : Nat) (nc ne ls : Bool) (rc rd : ℚ) :
    ((0 < u ∨ nc = true ∨ ne = true ∨ ls = true) →
      hasStimulus u nc ne ls rc rd = true) ∧
    (u = 0 → nc = false → ne = false → ls = false →
      (hasStimulus u nc ne ls rc rd = true ↔ rd < rc)) := by
  constructor
  · intro h
    rcases h with h | h | h | h <;> simp [hasStimulus, h]
  · intro hu hnc hne hls
    subst hu hnc hne hls
    by_cases h : rd < rc <;> simp [hasStimulus, h]

theorem hasStimulus_spec_witness :
    (0 < 2 ∨ false = true ∨ false = true ∨ false = true) ∧
      hasStimulus 2 false false false (1/10) (9/10) = true :=
  ⟨Or.inl (by decide),
   (hasStimulus_spec 2 false false false (1/10) (9/10)).1 (Or.inl (by decide))⟩

section SoulTheorems

theorem applySocialRule_fields (sc : Nat) (soul : PetSoul) :
    (applySocialRule sc soul).version = soul.version ∧
    (applySocialRule sc soul).evolutionLog = soul.evolutionLog ∧
    (applySocialRule sc soul).preferences = soul.preferences := by
  unfold applySocialRule
  split
  · exact ⟨rfl, rfl, rfl⟩
  split
  · exact ⟨rfl, rfl, rfl⟩
  · exact ⟨rfl, rfl, rfl⟩

theorem applyExploreRule_fields (ec : Nat) (soul : PetSoul) :
    (applyExploreRule ec soul).version = soul.version ∧
    (applyExploreRule ec soul).evolutionLog = soul.evolutionLog ∧
    (applyExploreRule ec soul).preferences = soul.preferences ∧
    (applyExploreRule ec soul).traits.sociability = soul.traits.sociability := by
  unfold applyExploreRule
  split
  · exact ⟨rfl, rfl, rfl, rfl⟩
  · exact ⟨rfl, rfl, rfl, rfl⟩

theorem applyPlayRule_fields (pc : Nat) (soul : PetSoul) :
    (applyPlayRule pc soul).version = soul.version ∧
    (applyPlayRule pc soul).evolutionLog = soul.evolutionLog ∧
    (applyPlayRule pc soul).preferences = soul.preferences ∧
    (applyPlayRule pc soul).traits.sociability = soul.traits.sociability := by
  unfold applyPlayRule
  split
  · exact ⟨rfl, rfl, rfl, rfl⟩
  · exact ⟨rfl, rfl, rfl, rfl⟩

theorem applyFriendRule_fields (fc : Nat) (soul : PetSoul) :
    (applyFriendRule fc soul).version = soul.version ∧
    (applyFriendRule fc soul).evolutionLog = soul.evolutionLog ∧
    (applyFriendRule fc soul).preferences = soul.preferences ∧
    (applyFriendRule fc soul).traits.sociability = soul.traits.sociability := by
  unfold applyFriendRule
  split
  · exact ⟨rfl, rfl, rfl, rfl⟩
  · exact ⟨rfl, rfl, rfl, rfl⟩

theorem applyLikesRule_fields (acts : ActivityCounts) (soul : PetSoul) :
    (applyLikesRule acts soul).version = soul.version ∧
    (applyLikesRule acts soul).evolutionLog = soul.evolutionLog ∧
    (applyLikesRule acts soul).traits = soul.traits := by
  unfold applyLikesRule
  split
  · exact ⟨rfl, rfl, rfl⟩
  split
  · exact ⟨rfl, rfl, rfl⟩
  split
  · exact ⟨rfl, rfl, rfl⟩
  · exact ⟨rfl, rfl, rfl⟩

theorem applyPlaceRule_fields (plaza home : Nat) (soul : PetSoul) :
    (applyPlaceRule plaza home soul).version = soul.version ∧
    (applyPlaceRule plaza home soul).evolutionLog = soul.evolutionLog ∧
    (applyPlaceRule plaza home soul).traits = soul.traits := by
  unfold applyPlaceRule
  split
  · exact ⟨rfl, rfl, rfl⟩
  split
  · exact ⟨rfl, rfl, rfl⟩
  · exact ⟨rfl, rfl, rfl⟩

theorem evolveMutated_version (soul : PetSoul) (acts : ActivityCounts) :
    (evolveMutated soul acts).version = soul.version := by
  unfold evolveMutated
  rw [(applyPlaceRule_fields _ _ _).1, (applyLikesRule_fields _ _).1,
    (applyFriendRule_fields _ _).1, (applyPlayRule_fields _ _).1,
    (applyExploreRule_fields _ _).1, (applySocialRule_fields _ _).1]

theorem evolveMutated_log (soul : PetSoul) (acts : ActivityCounts) :
    (evolveMutated soul acts).evolutionLog = soul.evolutionLog := by
  unfold evolveMutated
  rw [(applyPlaceRule_fields _ _ _).2.1, (applyLikesRule_fields _ _).2.1,
    (applyFriendRule_fields _ _).2.1, (applyPlayRule_fields _ _).2.1,
    (applyExploreRule_fields _ _).2.1, (applySocialRule_fields _ _).2.1]

theorem evolveMutated_sociability (soul : PetSoul) (acts : ActivityCounts) :
    (evolveMutated soul acts).traits.sociability =
      (applySocialRule (socialCount acts) soul).traits.sociability := by
  unfold evolveMutated
  rw [(applyPlaceRule_fields _ _ _).2.2, (applyLikesRule_fields _ _).2.2,
    (applyFriendRule_fields _ _).2.2.2, (applyPlayRule_fields _ _).2.2.2,
    (applyExploreRule_fields _ _).2.2.2]

end SoulTheorems

/-- C2 (amended): the stored soul's version increases by exactly 1 and exactly
one evolution-log line (summarizing all deltas) is appended if and only if at
least one trait-delta rule fired (changes nonempty) — even when clamping left
every trait value unchanged; otherwise the stored soul is completely unchanged
(in particular preference-only updates are not persisted). -/
theorem evolveSoul_version_log (soul : PetSoul) (acts : ActivityCounts)
    (today now : String) :
    (evolveChanges acts ≠ [] →
      (evolveSoul soul acts today now).version = soul.version + 1 ∧
      (evolveSoul soul acts today now).evolutionLog =
        soul.evolutionLog ++
          [⟨today, String.intercalate ", " (evolveChanges acts),
            "基于这周" ++ toString (totalActivityCount acts) ++ "次活动"⟩]) ∧
    (evolveChanges acts = [] → evolveSoul soul acts today now = soul) := by
  constructor
  · intro hne
    have hne' : (evolveChanges acts).isEmpty = false := by
      simpa [List.isEmpty_iff] using hne
    constructor
    · simp only [evolveSoul, hne', Bool.false_eq_true, if_false]
      rw [evolveMutated_version]
    · simp only [evolveSoul, hne', Bool.false_eq_true, if_false]
      rw [evolveMutated_log]
  · intro hz
    simp [evolveSoul, hz]

theorem evolveSoul_version_log_witness :
    evolveChanges [("social_chat_init", 6)] ≠ [] ∧
      (evolveSoul
        ⟨1, "t0", ⟨50, 50, 50, 50, 50, 50⟩, ⟨true, false, true, false⟩,
         ⟨[], [], none, none⟩, []⟩ [("social_chat_init", 6)] "2026-10-11" "t1").version =
        (1 : Int) + 1 :=
  ⟨by decide,
   ((evolveSoul_version_log
      ⟨1, "t0", ⟨50, 50, 50, 50, 50, 50⟩, ⟨true, false, true, false⟩,
       ⟨[], [], none, none⟩, []⟩ [("social_chat_init", 6)] "2026-10-11" "t1").1
     (by decide)).1⟩

/-- C2 counterexample: for a soul with sociability 0 and an empty activity
week, `evolveSoul` increments the version (the "社交性-1" rule fires) although
no trait and no preference changed — refuting "version increases by exactly 1
only if at least one trait or preference changed". -/
theorem evolveSoul_version_without_change :
    (evolveSoul
        ⟨1, "t0", ⟨50, 50, 0, 50, 50, 50⟩, ⟨true, false, true, false⟩,
         ⟨[], [], none, none⟩, []⟩ [] "2026-10-11" "t1").version = 1 + 1 ∧
    (evolveSoul
        ⟨1, "t0", ⟨50, 50, 0, 50, 50, 50⟩, ⟨true, false, true, false⟩,
         ⟨[], [], none, none⟩, []⟩ [] "2026-10-11" "t1").traits =
      ⟨50, 50, 0, 50, 50, 50⟩ ∧
    (evolveSoul
        ⟨1, "t0", ⟨50, 50, 0, 50, 50, 50⟩, ⟨true, false, true, false⟩,
         ⟨[], [], none, none⟩, []⟩ [] "2026-10-11" "t1").preferences =
      ⟨[], [], none, none⟩ := by
  refine ⟨by decide, by decide, by decide⟩

/-- C3 counterexample: with exactly 5 social-type entries in the week
(the claim's "at least 5" boundary) the sociability trait is NOT raised:
the source condition is `socialCount > 5`, so a soul with sociability 50
stays at 50, not the claimed 53. -/
theorem evolve_sociability_at_five :
    (evolveSoul
        ⟨1, "t0", ⟨50, 50, 50, 50, 50, 50⟩, ⟨true, false, true, false⟩,
         ⟨[], [], none, none⟩, []⟩ [("social_chat_init", 5)] "2026-10-11"
        "t1").traits.sociability ≠ 53 := by
  decide

/-- C3 (amended): the sociability rule fires at MORE than 5 social-type
entries (i.e. at least 6): then sociability becomes min 100 (old+3); at 0
social-type entries it becomes max 0 (old-1); and in the Scenario C
configuration (sociability 50, six social entries) the result is 53 with
exactly one evolution-log line appended and version incremented by 1. -/
theorem evolve_sociability_rules (soul : PetSoul) (acts : ActivityCounts)
    (today now : String) :
    (5 < socialCount acts →
      (evolveSoul soul acts today now).traits.sociability =
        min 100 (soul.traits.sociability + 3)) ∧
    (socialCount acts = 0 →
      (evolveSoul soul acts today now).traits.sociability =
        max 0 (soul.traits.sociability - 1)) ∧
    (soul.traits.sociability = 50 → socialCount acts = 6 →
      (evolveSoul soul acts today now).traits.sociability = 53 ∧
      (evolveSoul soul acts today now).version = soul.version + 1 ∧
      (evolveSoul soul acts today now).evolutionLog.length =
        soul.evolutionLog.length + 1) := by
  have hchange : ∀ h5 : 5 < socialCount acts ∨ socialCount acts = 0,
      evolveChanges acts ≠ [] := by
    intro h5
    unfold evolveChanges
    rcases h5 with h5 | h5
    · simp [h5]
    · have : ¬ 5 < socialCount acts := by omega
      simp [h5, this]
  have htraits : ∀ h : evolveChanges acts ≠ [],
      (evolveSoul soul acts today now).traits = (evolveMutated soul acts).traits := by
    intro h
    have hne' : (evolveChanges acts).isEmpty = false := by
      simpa [List.isEmpty_iff] using h
    simp only [evolveSoul, hne', Bool.false_eq_true, if_false]
  refine ⟨?_, ?_, ?_⟩
  · intro h5
    rw [htraits (hchange (Or.inl h5)), evolveMutated_sociability]
    simp [applySocialRule, h5]
  · intro h0
    rw [htraits (hchange (Or.inr h0)), evolveMutated_sociability]
    have : ¬ 5 < socialCount acts := by omega
    simp [applySocialRule, h0, this]
  · intro h50 h6
    have h5 : 5 < socialCount acts := by omega
    have hne := hchange (Or.inl h5)
    refine ⟨?_, ((evolveSoul_version_log soul acts today now).1 hne).1, ?_⟩
    · rw [htraits hne, evolveMutated_sociability]
      simp [applySocialRule, h5, h50]
    · rw [((evolveSoul_version_log soul acts today now).1 hne).2]
      simp

theorem evolve_sociability_rules_witness :
    ((5 : Nat) < socialCount [("social_chat_init", 6)]) ∧
      (evolveSoul
        ⟨1, "t0", ⟨50, 50, 50, 50, 50, 50⟩, ⟨true, false, true, false⟩,
         ⟨[], [], none, none⟩, []⟩ [("social_chat_init", 6)] "2026-10-11"
        "t1").traits.sociability = min 100 (50 + 3) :=
  ⟨by decide,
   (evolve_sociability_rules
      ⟨1, "t0", ⟨50, 50, 50, 50, 50, 50⟩, ⟨true, false, true, false⟩,
       ⟨[], [], none, none⟩, []⟩ [("social_chat_init", 6)] "2026-10-11" "t1").1
     (by decide)⟩

section LocationLemmas

theorem ensure_locations (w : World) (p : String) :
    (ensurePetState w p).locations = w.locations := by
  unfold ensurePetState
  split <;> rfl

theorem ensure_log (w : World) (p : String) :
    (ensurePetState w p).activityLog = w.activityLog := by
  unfold ensurePetState
  split <;> rfl

theorem ensure_pets (w : World) (p : String) :
    (ensurePetState w p).pets = w.pets := by
  unfold ensurePetState
  split <;> rfl

theorem getLocation_ensure (w : World) (p id : String) :
    getLocation (ensurePetState w p) id = getLocation w id := by
  unfold getLocation
  rw [ensure_locations]

theorem find?_append_of_none {p : α → Bool} {l₁ : List α} (l₂ : List α)
    (h : l₁.find? p = none) : (l₁ ++ l₂).find? p = l₂.find? p := by
  induction l₁ with
  | nil => simp
  | cons a l ih =>
    rw [List.find?_cons] at h
    rcases hpa : p a with _ | _
    · rw [List.cons_append, List.find?_cons, hpa]
      rw [hpa] at h
      exact ih h
    · rw [hpa] at h
      simp at h

theorem find?_append_of_some {p : α → Bool} {l₁ : List α} {r : α} (l₂ : List α)
    (h : l₁.find? p = some r) : (l₁ ++ l₂).find? p = some r := by
  induction l₁ with
  | nil => simp at h
  | cons a l ih =>
    rw [List.find?_cons] at h
    rcases hpa : p a with _ | _
    · rw [List.cons_append, List.find?_cons, hpa]
      rw [hpa] at h
      exact ih h
    · rw [hpa] at h
      rw [List.cons_append, List.find?_cons, hpa]
      exact h

theorem getPetLocationId_ensure (w : World) (p q : String) :
    getPetLocationId (ensurePetState w p) q = getPetLocationId w q := by
  unfold ensurePetState
  by_cases hs : (w.petState.find? (fun r => r.1 = p)).isSome
  · rw [if_pos hs]
  · rw [if_neg hs]
    rw [Option.not_isSome_iff_eq_none] at hs
    unfold getPetLocationId
    simp only
    cases hfind : List.find? (fun r => decide (r.1 = q)) w.petState with
    | some r => rw [find?_append_of_some _ hfind]
    | none =>
      rw [find?_append_of_none _ hfind]
      by_cases hpq : p = q
      · subst hpq
        simp [List.find?]
      · simp [List.find?, hpq]

theorem find?_ensure_isSome (w : World) (p : String) :
    ((ensurePetState w p).petState.find? (fun r => r.1 = p)).isSome := by
  unfold ensurePetState
  by_cases hs : (w.petState.find? (fun r => r.1 = p)).isSome
  · rw [if_pos hs]
    exact hs
  · rw [if_neg hs]
    rw [Option.not_isSome_iff_eq_none] at hs
    simp only
    rw [find?_append_of_none _ hs]
    simp [List.find?]

theorem nodup_keys_ensure (w : World) (p : String)
    (h : (w.petState.map Prod.fst).Nodup) :
    ((ensurePetState w p).petState.map Prod.fst).Nodup := by
  unfold ensurePetState
  split
  · exact h
  · rename_i hnone
    simp only [Option.not_isSome_iff_eq_none] at hnone
    rw [List.map_append, List.nodup_append]
    refine ⟨h, by simp, ?_⟩
    intro x hx
    simp only [List.map_cons, List.map_nil, List.mem_singleton]
    intro hxp
    subst hxp
    rcases List.mem_map.mp hx with ⟨r, hr, hrp⟩
    have := List.find?_eq_none.mp hnone r hr
    simp [hrp] at this

/- a key-preserving row update leaves rows with other keys untouched -/
theorem map_update_of_no_key (petId dest : String) :
    ∀ (l : List (String × String)), (∀ x ∈ l, x.1 ≠ petId) →
      l.map (fun r => if r.1 = petId then (r.1, dest) else r) = l
  | [], _ => rfl
  | r :: rs, h => by
    have hr : r.1 ≠ petId := h r (by simp)
    simp only [List.map_cons, if_neg hr]
    rw [map_update_of_no_key petId dest rs (fun x hx => h x (by simp [hx]))]

/- an update that touches only rows with one fixed key changes a filter count
by at most one, provided keys are unique -/
theorem length_filter_map_le {α β : Type} [DecidableEq β] (P : α → Bool) (f : α → α)
    (key : α → β) (k : β) (hf : ∀ x, key x ≠ k → f x = x) :
    ∀ (rows : List α), (rows.map key).Nodup →
      ((rows.map f).filter P).length ≤ (rows.filter P).length + 1
  | [], _ => by simp
  | r :: rows, h => by
    rw [List.map_cons] at h
    have hnd : (rows.map key).Nodup := h.of_cons
    have ih := length_filter_map_le P f key k hf rows hnd
    by_cases hk : key r = k
    · have hrows : rows.map f = rows := by
        have : ∀ x ∈ rows, f x = x := by
          intro x hx
          refine hf x ?_
          intro hcontra
          exact (List.nodup_cons.mp h).1 (hk ▸ hcontra ▸ List.mem_map.mpr ⟨x, hx, rfl⟩)
        calc rows.map f = rows.map id := List.map_congr_left this
        _ = rows := List.map_id rows
      rw [List.map_cons, hrows]
      rcases hpf : P (f r) with _ | _ <;> rcases hpr : P r with _ | _ <;>
        simp only [List.filter_cons, hpf, hpr, Bool.false_eq_true, if_false, if_true,
          List.length_cons] <;> omega
    · rw [List.map_cons, hf r hk]
      rcases hpr : P r with _ | _ <;>
        simp only [List.filter_cons, hpr, Bool.false_eq_true, if_false, if_true,
          List.length_cons] <;> omega

theorem length_filter_update (pets : List String) (petId dest : String)
    (rows : List (String × String)) (h : (rows.map Prod.fst).Nodup) :
    ((rows.map (fun r => if r.1 = petId then (r.1, dest) else r)).filter
      (fun r => r.2 = dest && pets.contains r.1)).length ≤
    (rows.filter (fun r => r.2 = dest && pets.contains r.1)).length + 1 := by
  refine length_filter_map_le _ _ Prod.fst petId ?_ rows h
  intro x hx
  simp [hx]

theorem find?_map_update (petId dest : String) :
    ∀ (l : List (String × String)),
      (l.find? (fun r => r.1 = petId)).isSome →
      (l.map (fun r => if r.1 = petId then (r.1, dest) else r)).find?
        (fun r => r.1 = petId) = some (petId, dest)
  | [], h => by simp [List.find?] at h
  | r :: rs, h => by
    by_cases hk : r.1 = petId
    · simp only [List.map_cons, if_pos hk, List.find?]
      simp [hk]
    · simp only [List.map_cons, if_neg hk, List.find?]
      have hd : (decide (r.1 = petId)) = false := by simp [hk]
      rw [hd]
      simp only [List.find?, hd] at h
      exact find?_map_update petId dest rs h

end LocationLemmas

/-- C6: `movePet` validates in this exact order, returning the error of the
first failing check: destination exists (else the unknown-location reason
"不存在的地方"), destination differs from the current location (else
"你已经在这里了"), destination adjacent to the current location (else the
unreachable reason), occupant count below destination capacity (else the
full reason); on success the pet's location row is set to the destination
and exactly one move activity-log row recording origin and destination is
appended.  `w1` is the state after the unconditional ensure-row INSERT. -/
theorem movePet_validation_order (w w1 : World) (petId dest : String)
    (hw1 : ensurePetState w petId = w1) :
    (getLocation w1 dest = none →
      movePet w petId dest = (⟨false, some "不存在的地方", none⟩, w1)) ∧
    (∀ d, getLocation w1 dest = some d → getPetLocationId w1 petId = dest →
      movePet w petId dest = (⟨false, some "你已经在这里了", none⟩, w1)) ∧
    (∀ d, getLocation w1 dest = some d → getPetLocationId w1 petId ≠ dest →
      (connectionsOf (getLocation w1 (getPetLocationId w1 petId))).contains dest = false →
      movePet w petId dest =
        (⟨false, some ("从" ++ locDisplayName (getLocation w1 (getPetLocationId w1 petId)) "这里" ++
          "不能直接到" ++ d.name), none⟩, w1)) ∧
    (∀ d, getLocation w1 dest = some d → getPetLocationId w1 petId ≠ dest →
      (connectionsOf (getLocation w1 (getPetLocationId w1 petId))).contains dest = true →
      d.capacity ≤ (occupantCount w1 dest : Int) →
      movePet w petId dest = (⟨false, some (d.name ++ "太挤了，进不去"), none⟩, w1)) ∧
    (∀ d, getLocation w1 dest = some d → getPetLocationId w1 petId ≠ dest →
      (connectionsOf (getLocation w1 (getPetLocationId w1 petId))).contains dest = true →
      (occupantCount w1 dest : Int) < d.capacity →
      (movePet w petId dest).1 = ⟨true, none, some d⟩ ∧
      ((movePet w petId dest).2.petState.find? (fun r => r.1 = petId)) = some (petId, dest) ∧
      (movePet w petId dest).2.activityLog = w.activityLog ++
        [⟨petId, "move", locDisplayName (getLocation w1 (getPetLocationId w1 petId))
          (getPetLocationId w1 petId), d.name, dest⟩]) := by
  refine ⟨?_, ?_, ?_, ?_, ?_⟩
  · intro hnone
    simp only [movePet, hw1, hnone]
  · intro d hd hcur
    simp only [movePet, hw1, hd, if_pos hcur]
  · intro d hd hcur hconn
    simp only [movePet, hw1, hd, if_neg hcur, hconn, Bool.not_false, if_pos]
  · intro d hd hcur hconn hcap
    simp only [movePet, hw1, hd, if_neg hcur, hconn, Bool.not_true, Bool.false_eq_true,
      if_false, if_pos hcap]
  · intro d hd hcur hconn hcap
    have hnotcap : ¬ d.capacity ≤ (occupantCount w1 dest : Int) := by omega
    simp only [movePet, hw1, hd, if_neg hcur, hconn, Bool.not_true, Bool.false_eq_true,
      if_false, if_neg hnotcap]
    refine ⟨by simp, ?_, ?_⟩
    · exact find?_map_update petId dest w1.petState (hw1 ▸ find?_ensure_isSome w petId)
    · simp [commitMove, hw1 ▸ ensure_log w petId]

theorem movePet_validation_order_witness :
    (getLocation (ensurePetState
        ⟨[⟨"hub", "Hub", 10, ["lake"]⟩], [], [("p1", "hub")], []⟩ "p1") "lake" = none) ∧
      movePet ⟨[⟨"hub", "Hub", 10, ["lake"]⟩], [], [("p1", "hub")], []⟩ "p1" "lake" =
        (⟨false, some "不存在的地方", none⟩,
         ensurePetState ⟨[⟨"hub", "Hub", 10, ["lake"]⟩], [], [("p1", "hub")], []⟩ "p1") :=
  ⟨by decide,
   (movePet_validation_order ⟨[⟨"hub", "Hub", 10, ["lake"]⟩], [], [("p1", "hub")], []⟩
      (ensurePetState ⟨[⟨"hub", "Hub", 10, ["lake"]⟩], [], [("p1", "hub")], []⟩ "p1")
      "p1" "lake" rfl).1 (by decide)⟩

/-- C5: failed moves have no effects — the pet's location reference and the
activity log are unchanged; successful moves leave the pet's location row at
the destination with the destination's occupant count at most its capacity;
and a move into a location at capacity fails with the full reason and leaves
the location reference unchanged. -/
theorem movePet_atomic (w : World) (petId dest : String)
    (hnd : (w.petState.map Prod.fst).Nodup) :
    ((movePet w petId dest).1.ok = false →
      getPetLocationId (movePet w petId dest).2 petId = getPetLocationId w petId ∧
      (movePet w petId dest).2.activityLog = w.activityLog) ∧
    (∀ d, getLocation w dest = some d → (movePet w petId dest).1.ok = true →
      ((movePet w petId dest).2.petState.find? (fun r => r.1 = petId)) = some (petId, dest) ∧
      ((occupantCount (movePet w petId dest).2 dest : Int) ≤ d.capacity)) ∧
    (∀ d, getLocation w dest = some d →
      getPetLocationId w petId ≠ dest →
      (connectionsOf (getLocation w (getPetLocationId w petId))).contains dest = true →
      d.capacity ≤ (occupantCount (ensurePetState w petId) dest : Int) →
      (movePet w petId dest).1 = ⟨false, some (d.name ++ "太挤了，进不去"), none⟩ ∧
      getPetLocationId (movePet w petId dest).2 petId = getPetLocationId w petId) := by
  have hmain := movePet_validation_order w (ensurePetState w petId) petId dest rfl
  have hglo : ∀ x, getLocation (ensurePetState w petId) x = getLocation w x :=
    fun x => getLocation_ensure w petId x
  have hgpi : ∀ q, getPetLocationId (ensurePetState w petId) q = getPetLocationId w q :=
    fun q => getPetLocationId_ensure w petId q
  refine ⟨?_, ?_, ?_⟩
  · intro hfail
    -- case on which validation step failed
    rcases hdest : getLocation (ensurePetState w petId) dest with _ | d
    · rw [hmain.1 hdest]
      exact ⟨hgpi petId, ensure_log w petId⟩
    by_cases hcur : getPetLocationId (ensurePetState w petId) petId = dest
    · rw [hmain.2.1 d hdest hcur]
      exact ⟨hgpi petId, ensure_log w petId⟩
    by_cases hconn : (connectionsOf (getLocation (ensurePetState w petId)
        (getPetLocationId (ensurePetState w petId) petId))).contains dest
    · by_cases hcap : d.capacity ≤ (occupantCount (ensurePetState w petId) dest : Int)
      · rw [hmain.2.2.2.1 d hdest hcur hconn hcap]
        exact ⟨hgpi petId, ensure_log w petId⟩
      · exfalso
        have hsucc := (hmain.2.2.2.2 d hdest hcur hconn (by omega)).1
        rw [hsucc] at hfail
        simp at hfail
    · rw [hmain.2.2.1 d hdest hcur (by simpa using hconn)]
      exact ⟨hgpi petId, ensure_log w petId⟩
  · intro d hd hok
    rcases hdest : getLocation (ensurePetState w petId) dest with _ | d'
    · rw [hmain.1 hdest] at hok
      simp at hok
    have hd' : d' = d := by
      rw [hglo dest, hd] at hdest
      exact (Option.some.inj hdest).symm
    subst hd'
    by_cases hcur : getPetLocationId (ensurePetState w petId) petId = dest
    · rw [hmain.2.1 d' hdest hcur] at hok
      simp at hok
    by_cases hconn : (connectionsOf (getLocation (ensurePetState w petId)
        (getPetLocationId (ensurePetState w petId) petId))).contains dest
    · by_cases hcap : d'.capacity ≤ (occupantCount (ensurePetState w petId) dest : Int)
      · rw [hmain.2.2.2.1 d' hdest hcur hconn hcap] at hok
        simp at hok
      · have hsucc := hmain.2.2.2.2 d' hdest hcur hconn (by omega)
        refine ⟨hsucc.2.1, ?_⟩
        -- occupancy bound after the committed move
        have hform : (movePet w petId dest).2 =
            commitMove (ensurePetState w petId) petId
              (getLocation (ensurePetState w petId) (getPetLocationId (ensurePetState w petId) petId))
              (getPetLocationId (ensurePetState w petId) petId) d' dest := by
          have hnotcap : ¬ d'.capacity ≤ (occupantCount (ensurePetState w petId) dest : Int) := hcap
          simp only [movePet, hdest, if_neg hcur, hconn, Bool.not_true, Bool.false_eq_true,
            if_false, if_neg hnotcap]
        rw [hform]
        have hcount : occupantCount (commitMove (ensurePetState w petId) petId
            (getLocation (ensurePetState w petId) (getPetLocationId (ensurePetState w petId) petId))
            (getPetLocationId (ensurePetState w petId) petId) d' dest) dest ≤
            occupantCount (ensurePetState w petId) dest + 1 := by
          unfold commitMove occupantCount
          simp only
          exact length_filter_update _ petId dest (ensurePetState w petId).petState
            (nodup_keys_ensure w petId hnd)
        omega
    · rw [hmain.2.2.1 d' hdest hcur (by simpa using hconn)] at hok
      simp at hok
  · intro d hd hcur hconn hcap
    have hdest : getLocation (ensurePetState w petId) dest = some d := by
      rw [hglo dest]; exact hd
    have hcur' : getPetLocationId (ensurePetState w petId) petId ≠ dest := by
      rw [hgpi petId]; exact hcur
    have hconn' : (connectionsOf (getLocation (ensurePetState w petId)
        (getPetLocationId (ensurePetState w petId) petId))).contains dest = true := by
      rw [hgpi petId, hglo]; exact hconn
    rw [hmain.2.2.2.1 d hdest hcur' hconn' hcap]
    exact ⟨rfl, hgpi petId⟩

theorem movePet_atomic_witness :
    ((([(("p1" : String), ("hub" : String)), ("p2", "courtyard"), ("p3", "courtyard")].map
        Prod.fst).Nodup) ∧
      (movePet ⟨[⟨"hub", "Hub", 10, ["courtyard"]⟩, ⟨"courtyard", "courtyard", 2, ["hub"]⟩],
          ["p1", "p2", "p3"], [("p1", "hub"), ("p2", "courtyard"), ("p3", "courtyard")], []⟩
        "p1" "courtyard").1 =
        ⟨false, some ("courtyard" ++ "太挤了，进不去"), none⟩) :=
  ⟨by decide,
   ((movePet_atomic ⟨[⟨"hub", "Hub", 10, ["courtyard"]⟩, ⟨"courtyard", "courtyard", 2, ["hub"]⟩],
        ["p1", "p2", "p3"], [("p1", "hub"), ("p2", "courtyard"), ("p3", "courtyard")], []⟩
      "p1" "courtyard" (by decide)).2.2 ⟨"courtyard", "courtyard", 2, ["hub"]⟩
      (by decide) (by decide) (by decide) (by decide)).1⟩

section MessageLemmas

theorem receive_out_mem (db : MessageDb) (pet : String) (limit now : Nat) :
    ∀ m ∈ (receiveMessages db pet limit now).1,
      unreadDirectTo pet m = true ∧ m ∈ db.msgs := by
  intro m hm
  simp only [receiveMessages] at hm
  have h1 : m ∈ sortBy (fun a b => b.createdAt ≤ a.createdAt)
      (db.msgs.filter (unreadDirectTo pet)) := List.mem_of_mem_take hm
  have h2 : m ∈ db.msgs.filter (unreadDirectTo pet) := mem_sortBy h1
  exact ⟨(List.mem_filter.mp h2).2, (List.mem_filter.mp h2).1⟩

theorem receive_marks_read (db : MessageDb) (pet : String) (limit now : Nat) :
    ∀ m ∈ (receiveMessages db pet limit now).2.msgs,
      m.id ∈ ((receiveMessages db pet limit now).1.map (fun x => x.id)) →
      m.readAt = some now := by
  intro m hm hid
  simp only [receiveMessages] at hm hid
  rcases List.mem_map.mp hm with ⟨m₀, hm₀, rfl⟩
  by_cases hc : (((sortBy (fun a b => b.createdAt ≤ a.createdAt)
      (db.msgs.filter (unreadDirectTo pet))).take limit).map (fun m => m.id)).contains m₀.id
  · simp only [if_pos hc]
  · exfalso
    rw [if_neg hc] at hid
    exact hc (List.elem_iff.mpr hid)

end MessageLemmas

/-- C7: direct messages are single-read — a receive-direct call returns only
unread direct messages addressed to the agent, most recent first, up to the
limit, and marks every returned message read, so any immediately following
receive-direct call returns none of those messages; and in the Scenario B
configuration (two direct messages to X) the first receiveDirect(X, 10)
returns both and a second immediate call returns zero. -/
theorem receiveDirect_single_read :
    (∀ (db : MessageDb) (pet : String) (limit now : Nat),
      (∀ m ∈ (receiveMessages db pet limit now).1,
        m.toPetId = some pet ∧ m.readAt = none ∧ m.channel = "direct") ∧
      (receiveMessages db pet limit now).1.length =
        min limit (db.msgs.filter (unreadDirectTo pet)).length ∧
      List.Chain' (fun a b => b.createdAt ≤ a.createdAt) (receiveMessages db pet limit now).1 ∧
      (∀ (limit2 now2 : Nat),
        ∀ m ∈ (receiveMessages (receiveMessages db pet limit now).2 pet limit2 now2).1,
          m.id ∉ ((receiveMessages db pet limit now).1.map (fun x => x.id)))) ∧
    ((receiveMessages (sendMessage (sendMessage ⟨[], 1⟩ "A" "X" "hi" 10) "B" "X" "yo" 20)
        "X" 10 30).1.length = 2 ∧
      (receiveMessages (receiveMessages (sendMessage (sendMessage ⟨[], 1⟩ "A" "X" "hi" 10)
        "B" "X" "yo" 20) "X" 10 30).2 "X" 10 40).1 = []) := by
  constructor
  · intro db pet limit now
    refine ⟨?_, ?_, ?_, ?_⟩
    · intro m hm
      have h := (receive_out_mem db pet limit now m hm).1
      simp only [unreadDirectTo, Bool.and_eq_true, beq_iff_eq] at h
      exact ⟨h.1.1, h.1.2, h.2⟩
    · simp only [receiveMessages]
      rw [List.length_take, length_sortBy]
    · simp only [receiveMessages]
      refine List.Chain'.imp ?_ (chain_take _ (chain_sortBy ?_ _))
      · intro a b h
        exact of_decide_eq_true h
      · intro a b
        rcases Nat.le_total b.createdAt a.createdAt with h | h
        · exact Or.inl (decide_eq_true h)
        · exact Or.inr (decide_eq_true h)
    · intro limit2 now2 m hm hid
      have h1 := receive_out_mem (receiveMessages db pet limit now).2 pet limit2 now2 m hm
      have hread := receive_marks_read db pet limit now m h1.2 hid
      have hnone : m.readAt = none := by
        have := h1.1
        simp only [unreadDirectTo, Bool.and_eq_true, beq_iff_eq] at this
        exact this.1.2
      rw [hread] at hnone
      exact Option.noConfusion hnone
  · constructor
    · decide
    · decide

theorem receiveDirect_single_read_witness :
    (⟨2, "B", some "X", none, "direct", "yo", none, some (20 + 7 * 86400), 20⟩ : PetMessage) ∈
        (receiveMessages (sendMessage (sendMessage ⟨[], 1⟩ "A" "X" "hi" 10) "B" "X" "yo" 20)
          "X" 10 30).1 ∧
      (⟨2, "B", some "X", none, "direct", "yo", none, some (20 + 7 * 86400), 20⟩ :
        PetMessage).toPetId = some "X" :=
  ⟨by decide,
   ((receiveDirect_single_read.1
      (sendMessage (sendMessage ⟨[], 1⟩ "A" "X" "hi" 10) "B" "X" "yo" 20) "X" 10 30).1
     ⟨2, "B", some "X", none, "direct", "yo", none, some (20 + 7 * 86400), 20⟩
     (by decide)).1⟩

section MemoryLemmas

theorem isPrefixOf_append_left {p X : List Char} (Y : List Char)
    (h : p.isPrefixOf X = true) : p.isPrefixOf (X ++ Y) = true := by
  rw [List.isPrefixOf_iff_prefix] at h ⊢
  exact h.trans (List.prefix_append X Y)

theorem isPrefixOf_of_append_le {p X Y : List Char}
    (h : p.isPrefixOf (X ++ Y) = true) (hl : p.length ≤ X.length) :
    p.isPrefixOf X = true := by
  rw [List.isPrefixOf_iff_prefix] at h ⊢
  have heq := List.prefix_iff_eq_take.mp h
  rw [List.take_append_of_le_length hl] at heq
  exact heq ▸ List.take_prefix p.length X

theorem mem_drop_of_isPrefixOf_append {p X Y : List Char} {c : Char}
    (h : p.isPrefixOf (X ++ c :: Y) = true) (hl : X.length < p.length) :
    c ∈ p.drop X.length := by
  rw [List.isPrefixOf_iff_prefix] at h
  have hX : X <+: X ++ c :: Y := List.prefix_append X (c :: Y)
  have hXp : X <+: p := by
    rcases List.prefix_or_prefix_of_prefix hX h with h' | h'
    · exact h'
    · have := h'.length_le
      omega
  rcases hXp with ⟨p', rfl⟩
  have hp' : p' <+: c :: Y := (List.prefix_append_right_inj X).mp h
  rcases p' with _ | ⟨d, p''⟩
  · simp at hl
  · have hd : d = c := (List.cons_prefix_cons.mp hp').1
    rw [List.drop_left]
    simp [hd]

theorem countOcc_nil_of_ne {p : List Char} (hp : p ≠ []) : countOcc p [] = 0 := by
  rcases p with _ | ⟨h, p'⟩
  · exact absurd rfl hp
  · rfl

theorem countOcc_cons (p : List Char) (c : Char) (t : List Char) :
    countOcc p (c :: t) = (if p.isPrefixOf (c :: t) then 1 else 0) + countOcc p t := rfl

theorem countOcc_cons_ne {h : Char} {p' : List Char} {c : Char} (t : List Char)
    (hne : c ≠ h) : countOcc (h :: p') (c :: t) = countOcc (h :: p') t := by
  rw [countOcc_cons]
  have hfalse : (h :: p').isPrefixOf (c :: t) = false := by
    show (h == c && p'.isPrefixOf t) = false
    have hhc : (h == c) = false := by
      rw [beq_eq_false_iff_ne]
      intro hhc
      exact hne hhc.symm
    rw [hhc, Bool.false_and]
  rw [hfalse]
  simp

theorem countOcc_zero_of_head_notin {h : Char} {p' : List Char} :
    ∀ {t : List Char}, (∀ c ∈ t, c ≠ h) → countOcc (h :: p') t = 0
  | [], _ => rfl
  | c :: cs, ht => by
    rw [countOcc_cons_ne cs (ht c (by simp))]
    exact countOcc_zero_of_head_notin (fun c hc => ht c (by simp [hc]))

theorem countOcc_append_right_le (p : List Char) :
    ∀ (A B : List Char), countOcc p B ≤ countOcc p (A ++ B)
  | [], B => le_of_eq rfl
  | a :: A', B => by
    rw [List.cons_append, countOcc_cons]
    have := countOcc_append_right_le p A' B
    omega

theorem countOcc_drop_le (p l : List Char) (k : Nat) :
    countOcc p (l.drop k) ≤ countOcc p l := by
  conv_rhs => rw [← List.take_append_drop k l]
  exact countOcc_append_right_le p _ _

theorem countOcc_append {p : List Char} (hp : p ≠ []) {B : List Char} (hB : B ≠ [])
    (hcross : ∀ c, B.head? = some c → c ∉ p.drop 1) :
    ∀ (A : List Char), countOcc p (A ++ B) = countOcc p A + countOcc p B
  | [] => by rw [List.nil_append, countOcc_nil_of_ne hp, Nat.zero_add]
  | a :: A' => by
    rw [List.cons_append, countOcc_cons, countOcc_cons,
      countOcc_append hp hB hcross A']
    have hif : p.isPrefixOf (a :: (A' ++ B)) = p.isPrefixOf (a :: A') := by
      rcases hpre : p.isPrefixOf (a :: A') with _ | _
      · rcases hpre2 : p.isPrefixOf (a :: (A' ++ B)) with _ | _
        · rfl
        · exfalso
          by_cases hlen : p.length ≤ (a :: A').length
          · rw [show a :: (A' ++ B) = (a :: A') ++ B from rfl] at hpre2
            rw [isPrefixOf_of_append_le hpre2 hlen] at hpre
            exact Bool.noConfusion hpre
          · rcases B with _ | ⟨c, B'⟩
            · exact hB rfl
            · rw [show a :: (A' ++ c :: B') = (a :: A') ++ c :: B' from rfl] at hpre2
              have hc := mem_drop_of_isPrefixOf_append hpre2 (by omega)
              have hmem : c ∈ p.drop 1 := by
                have h1 : (1:Nat) ≤ (a :: A').length := by simp
                have : p.drop (a :: A').length = (p.drop 1).drop ((a :: A').length - 1) := by
                  rw [List.drop_drop]
                  congr 1
                  omega
                rw [this] at hc
                exact List.mem_of_mem_drop hc
              exact hcross c rfl hmem
      · rw [show a :: (A' ++ B) = (a :: A') ++ B from rfl]
        rw [isPrefixOf_append_left B hpre]
    rw [hif]
    omega

theorem isPrefixOf_self (p : List Char) : p.isPrefixOf p = true := by
  rw [List.isPrefixOf_iff_prefix]

theorem countOcc_self_append {p : List Char} (hp : p ≠ []) (rest : List Char) :
    1 + countOcc p rest ≤ countOcc p (p ++ rest) := by
  rcases p with _ | ⟨h, p'⟩
  · exact absurd rfl hp
  · rw [show (h :: p') ++ rest = h :: (p' ++ rest) from rfl, countOcc_cons]
    have h1 : (h :: p').isPrefixOf (h :: (p' ++ rest)) = true := by
      rw [show h :: (p' ++ rest) = (h :: p') ++ rest from rfl]
      exact isPrefixOf_append_left rest (isPrefixOf_self _)
    rw [h1, if_pos rfl]
    have := countOcc_append_right_le (h :: p') p' rest
    omega

theorem occursL_false_iff {p : List Char} (hp : p ≠ []) :
    ∀ (t : List Char), occursL p t = false ↔ countOcc p t = 0
  | [] => by
    rcases p with _ | ⟨h, p'⟩
    · exact absurd rfl hp
    · show (List.isPrefixOf _ _ = false) ↔ _
      simp [List.isPrefixOf, countOcc]
  | c :: cs => by
    rw [show occursL p (c :: cs) = (p.isPrefixOf (c :: cs) || occursL p cs) from rfl,
      countOcc_cons]
    rw [Bool.or_eq_false_iff]
    constructor
    · rintro ⟨h1, h2⟩
      rw [h1, (occursL_false_iff hp cs).mp h2]
      simp
    · intro h
      rcases hpre : p.isPrefixOf (c :: cs) with _ | _
      · rw [hpre] at h
        simp at h
        exact ⟨rfl, (occursL_false_iff hp cs).mpr h⟩
      · rw [hpre] at h
        simp at h

theorem splitAtFirst_spec {p : List Char} :
    ∀ {s pre suf : List Char}, splitAtFirst p s = some (pre, suf) →
      s = pre ++ suf ∧ p.isPrefixOf suf = true
  | [], pre, suf, h => by
    unfold splitAtFirst at h
    split at h
    · rename_i hP
      rcases Prod.mk.injEq .. ▸ Option.some.inj h with ⟨h1, h2⟩
      subst h1; subst h2
      exact ⟨rfl, hP⟩
    · exact Option.noConfusion h
  | c :: cs, pre, suf, h => by
    unfold splitAtFirst at h
    split at h
    · rename_i hP
      rcases Prod.mk.injEq .. ▸ Option.some.inj h with ⟨h1, h2⟩
      subst h1; subst h2
      exact ⟨rfl, hP⟩
    · revert h
      rcases hrec : splitAtFirst p cs with _ | ⟨pre', suf'⟩
      · intro h
        exact Option.noConfusion h
      · intro h
        rcases Prod.mk.injEq .. ▸ Option.some.inj h with ⟨h1, h2⟩
        subst h1; subst h2
        rcases splitAtFirst_spec hrec with ⟨hs, hP⟩
        exact ⟨by rw [List.cons_append, ← hs], hP⟩

theorem splitAtFirst_isSome_of_occursL {p : List Char} :
    ∀ {s : List Char}, occursL p s = true → (splitAtFirst p s).isSome
  | [], h => by
    unfold occursL at h
    unfold splitAtFirst
    simp [h]
  | c :: cs, h => by
    unfold splitAtFirst
    rcases hP : p.isPrefixOf (c :: cs) with _ | _
    · simp only [hP, Bool.false_eq_true, if_false]
      unfold occursL at h
      rw [hP] at h
      simp only [Bool.false_or] at h
      have := splitAtFirst_isSome_of_occursL h
      rcases hrec : splitAtFirst p cs with _ | ⟨pre', suf'⟩
      · rw [hrec] at this
        simp at this
      · simp
    · simp [hP]

theorem dropLine_suffix : ∀ (l : List Char),
    (∃ X, l = X ++ dropLine l) ∧
      (dropLine l = [] ∨ ∃ l', dropLine l = '\n' :: l')
  | [] => ⟨⟨[], rfl⟩, Or.inl rfl⟩
  | c :: cs => by
    unfold dropLine
    by_cases hc : c = '\n'
    · rw [if_pos hc]
      exact ⟨⟨[], rfl⟩, Or.inr ⟨cs, by rw [hc]⟩⟩
    · rw [if_neg hc]
      rcases dropLine_suffix cs with ⟨⟨X, hX⟩, hcase⟩
      exact ⟨⟨c :: X, by rw [List.cons_append, ← hX]⟩, hcase⟩

theorem takeLast_length (n : Nat) (l : List α) :
    (takeLast n l).length = l.length - (l.length - n) := by
  unfold takeLast
  rw [List.length_drop]

theorem cleanB_spec {l : List Char} (h : cleanB l = true) :
    ∀ c ∈ l, c ≠ '[' ∧ c ≠ '\n' := by
  intro c hc
  unfold cleanB at h
  have := List.all_eq_true.mp h c hc
  simp only [Bool.and_eq_true, Bool.not_eq_true', beq_eq_false_iff_ne] at this
  exact this

theorem cleanB_append (a b : List Char) :
    cleanB (a ++ b) = (cleanB a && cleanB b) := List.all_append

theorem cleanB_joinSep {sep : List Char} (hsep : cleanB sep = true) :
    ∀ {L : List (List Char)}, (∀ x ∈ L, cleanB x = true) →
      cleanB (joinSep sep L) = true
  | [], _ => rfl
  | [x], h => h x (by simp)
  | x :: y :: xs, h => by
    show cleanB (x ++ sep ++ joinSep sep (y :: xs)) = true
    rw [cleanB_append, cleanB_append]
    rw [h x (by simp), hsep,
      cleanB_joinSep hsep (fun z hz => h z (List.mem_cons_of_mem x hz))]
    rfl

theorem digitChar_clean (n : Nat) : cleanB [digitChar n] = true := by
  by_cases h : n < 10
  · interval_cases n <;> decide
  · unfold digitChar
    rw [List.getD_eq_default]
    · decide
    · simpa using Nat.le_of_not_lt h

theorem natCharsAux_clean : ∀ (fuel n : Nat), cleanB (natCharsAux fuel n) = true
  | 0, _ => rfl
  | fuel + 1, n => by
    unfold natCharsAux
    by_cases h : n < 10
    · rw [if_pos h]
      exact digitChar_clean n
    · rw [if_neg h, cleanB_append, natCharsAux_clean fuel (n / 10), digitChar_clean]
      rfl

theorem natChars_clean (n : Nat) : cleanB (natChars n) = true :=
  natCharsAux_clean (n + 1) n

theorem socialNames_clean {rows : List ActRow}
    (hn : ∀ r ∈ rows, ∀ d, r.data = some d → ∀ nm, d.targetPet = some nm →
      cleanB nm.data = true) :
    ∀ nm ∈ socialNames rows, cleanB nm.data = true := by
  unfold socialNames
  suffices h : ∀ (rs : List ActRow) (acc : List String),
      (∀ r ∈ rs, ∀ d, r.data = some d → ∀ nm, d.targetPet = some nm →
        cleanB nm.data = true) →
      (∀ x ∈ acc, cleanB x.data = true) →
      ∀ nm ∈ rs.foldl addSocialName acc, cleanB nm.data = true by
    exact h rows [] hn (by simp)
  intro rs
  induction rs with
  | nil =>
    intro acc _ hacc nm hnm
    exact hacc nm hnm
  | cons r rs ih =>
    intro acc hrs hacc nm hnm
    rw [List.foldl_cons] at hnm
    refine ih (addSocialName acc r) (fun x hx => hrs x (by simp [hx])) ?_ nm hnm
    intro x hx
    rcases hd : r.data with _ | d
    · simp only [addSocialName, hd] at hx
      exact hacc x hx
    · rcases ht : d.targetPet with _ | tnm
      · simp only [addSocialName, hd, ht] at hx
        exact hacc x hx
      · simp only [addSocialName, hd, ht] at hx
        by_cases h1 : tnm = ""
        · rw [if_pos h1] at hx
          exact hacc x hx
        · rw [if_neg h1] at hx
          by_cases h2 : acc.contains tnm
          · rw [if_pos h2] at hx
            exact hacc x hx
          · rw [if_neg h2] at hx
            rcases List.mem_append.mp hx with hx | hx
            · exact hacc x hx
            · rw [List.mem_singleton.mp hx]
              exact hrs r (by simp) d hd tnm ht

theorem mem_ite_singleton {x a : α} {c : Prop} [Decidable c]
    (h : x ∈ (if c then [a] else [])) : x = a := by
  split at h
  · exact List.mem_singleton.mp h
  · exact absurd h (List.not_mem_nil x)

theorem dailyLines_clean {rows : List ActRow}
    (hn : ∀ r ∈ rows, ∀ d, r.data = some d → ∀ nm, d.targetPet = some nm →
      cleanB nm.data = true) :
    ∀ l ∈ dailyLines rows, cleanB l = true := by
  have hjoin : cleanB (joinSep "、".data ((socialNames rows).map String.data)) = true := by
    refine cleanB_joinSep (by decide) ?_
    intro x hx
    rcases List.mem_map.mp hx with ⟨nm, hnm, rfl⟩
    exact socialNames_clean hn nm hnm
  have hcomb : ∀ {a b : List Char}, cleanB a = true → cleanB b = true →
      cleanB (a ++ b) = true := by
    intro a b h1 h2
    rw [cleanB_append, h1, h2]
    rfl
  intro l hl
  unfold dailyLines at hl
  simp only [List.mem_append] at hl
  rcases hl with (((((((((hl | hl) | hl) | hl) | hl) | hl) | hl) | hl) | hl) | hl) | hl
  · rw [mem_ite_singleton hl]
    exact hcomb (hcomb (by decide) (natChars_clean _)) (by decide)
  · rw [mem_ite_singleton hl]
    exact hcomb (hcomb (by decide) (natChars_clean _)) (by decide)
  · rw [mem_ite_singleton hl]
    exact hcomb (hcomb (by decide) (natChars_clean _)) (by decide)
  · rw [mem_ite_singleton hl]
    exact hcomb (hcomb (by decide) (natChars_clean _)) (by decide)
  · rw [mem_ite_singleton hl]
    exact hcomb (hcomb (by decide) (natChars_clean _)) (by decide)
  · rw [mem_ite_singleton hl]
    exact hcomb (hcomb (by decide) (natChars_clean _)) (by decide)
  · rw [mem_ite_singleton hl]
    exact hcomb (hcomb (by decide) (natChars_clean _)) (by decide)
  · rw [mem_ite_singleton hl]
    exact hcomb (hcomb (by decide) (natChars_clean _)) (by decide)
  · rw [mem_ite_singleton hl]
    exact hcomb (hcomb (by decide) (natChars_clean _)) (by decide)
  · rw [mem_ite_singleton hl]
    refine hcomb (hcomb (hcomb (hcomb (by decide) ?_) (by decide))
      (natChars_clean _)) (by decide)
    split
    · decide
    · exact hjoin
  · rw [mem_ite_singleton hl]
    exact hcomb (by decide) hjoin

end MemoryLemmas

section MemoryTheorems

theorem length_truncate500 (N : List Char) : (truncate500 N).length ≤ 500 := by
  unfold truncate500
  split
  · rename_i h
    rw [List.length_append, takeLast_length]
    have h497 : N.length - (N.length - 497) = 497 := by omega
    have h3 : ("...".data).length = 3 := rfl
    omega
  · rename_i h
    omega

set_option maxRecDepth 4000 in
theorem countOcc_truncate500 (today : List Char) (N : List Char) :
    countOcc (dateTag today) (truncate500 N) ≤ countOcc (dateTag today) N := by
  unfold truncate500
  split
  · have h3 : countOcc (dateTag today) ("...".data ++ takeLast 497 N) =
        countOcc (dateTag today) (takeLast 497 N) := by
      have hdt : dateTag today = '[' :: (today ++ [']']) := rfl
      have hdots : ("...".data : List Char) = ['.', '.', '.'] := rfl
      rw [hdt, hdots]
      rw [show (['.', '.', '.'] : List Char) ++ takeLast 497 N =
        '.' :: '.' :: '.' :: takeLast 497 N from rfl]
      rw [countOcc_cons_ne _ (by decide), countOcc_cons_ne _ (by decide),
        countOcc_cons_ne _ (by decide)]
    rw [h3]
    unfold takeLast
    exact countOcc_drop_le _ N _
  · exact le_refl _

theorem countOcc_dateTag_self (today R : List Char)
    (hT : ∀ c ∈ today, c ≠ '[') (hR : ∀ c ∈ R, c ≠ '[') :
    countOcc (dateTag today) (dateTag today ++ R) = 1 := by
  have h2 : dateTag today ++ R = '[' :: ((today ++ [']']) ++ R) := by
    simp [dateTag]
  have h1 : ('[' :: (today ++ [']'])).isPrefixOf ('[' :: ((today ++ [']']) ++ R)) = true := by
    have hh := isPrefixOf_append_left R (isPrefixOf_self (dateTag today))
    rw [h2] at hh
    exact hh
  rw [h2]
  show countOcc ('[' :: (today ++ [']'])) _ = 1
  rw [countOcc_cons, h1, if_pos rfl]
  have hz : ∀ c ∈ (today ++ [']']) ++ R, c ≠ '[' := by
    intro c hc
    rcases List.mem_append.mp hc with hc | hc
    · rcases List.mem_append.mp hc with hc | hc
      · exact hT c hc
      · rw [List.mem_singleton.mp hc]
        decide
    · exact hR c hc
  rw [countOcc_zero_of_head_notin hz]

theorem countOcc_compressNewSummary (s today : List Char) (rows : List ActRow)
    (htoday : cleanB today = true)
    (hn : ∀ r ∈ rows, ∀ d, r.data = some d → ∀ nm, d.targetPet = some nm →
      cleanB nm.data = true)
    (hprev : countOcc (dateTag today) s ≤ 1) :
    countOcc (dateTag today) (compressNewSummary s today rows) ≤ 1 := by
  have f1 : dateTag today ≠ [] := by simp [dateTag]
  have hTne : ∀ c ∈ today, c ≠ '[' := fun c hc => (cleanB_spec htoday c hc).1
  have f3 : '[' ∉ (dateTag today).drop 1 := by
    show '[' ∉ today ++ [']']
    intro hmem
    rcases List.mem_append.mp hmem with h | h
    · exact hTne _ h rfl
    · rw [List.mem_singleton] at h
      exact absurd h (by decide)
  have f4 : '\n' ∉ (dateTag today).drop 1 := by
    show '\n' ∉ today ++ [']']
    intro hmem
    rcases List.mem_append.mp hmem with h | h
    · exact (cleanB_spec htoday _ h).2 rfl
    · rw [List.mem_singleton] at h
      exact absurd h (by decide)
  have hJclean : cleanB (joinSep "，".data (dailyLines rows)) = true :=
    cleanB_joinSep (by decide) (dailyLines_clean hn)
  have haddR : ∀ c ∈ " ".data ++ joinSep "，".data (dailyLines rows), c ≠ '[' := by
    intro c hc
    rcases List.mem_append.mp hc with h | h
    · rw [List.mem_singleton.mp h]
      decide
    · exact (cleanB_spec hJclean c h).1
  have hadd : countOcc (dateTag today) (compressAddition today rows) = 1 := by
    unfold compressAddition
    rw [List.append_assoc]
    exact countOcc_dateTag_self today _ hTne haddR
  unfold compressNewSummary
  split
  · exact hprev
  split
  · -- same-day replace branch
    rename_i hlines hocc
    have hsome := splitAtFirst_isSome_of_occursL hocc
    rcases hsplit : splitAtFirst (dateTag today) s with _ | ⟨pre, suf⟩
    · rw [hsplit] at hsome
      simp at hsome
    rcases splitAtFirst_spec hsplit with ⟨hseq, hpre⟩
    have hsufeq : dateTag today ++ suf.drop (dateTag today).length = suf :=
      List.prefix_iff_eq_append.mp (List.isPrefixOf_iff_prefix.mp hpre)
    have hrepl : replaceDateLine s (dateTag today) (compressAddition today rows) =
        pre ++ compressAddition today rows ++ dropLine (suf.drop (dateTag today).length) := by
      unfold replaceDateLine
      rw [hsplit]
    rw [hrepl]
    have hcross_tag : ∀ c, suf.head? = some c → c ∉ (dateTag today).drop 1 := by
      intro c hc
      rw [← hsufeq] at hc
      rw [show dateTag today ++ suf.drop (dateTag today).length =
        '[' :: ((today ++ [']']) ++ suf.drop (dateTag today).length) from by simp [dateTag],
        List.head?_cons] at hc
      rw [← Option.some.inj hc]
      exact f3
    have hsufne : suf ≠ [] := by
      rw [← hsufeq]
      simp [dateTag]
    have hs_count : countOcc (dateTag today) s =
        countOcc (dateTag today) pre + countOcc (dateTag today) suf := by
      rw [hseq]
      exact countOcc_append f1 hsufne hcross_tag pre
    have hsuf_ge : 1 + countOcc (dateTag today) (suf.drop (dateTag today).length) ≤
        countOcc (dateTag today) suf := by
      conv_rhs => rw [← hsufeq]
      exact countOcc_self_append f1 _
    have hpre0 : countOcc (dateTag today) pre = 0 := by
      rw [hs_count] at hprev
      omega
    have hrest0 : countOcc (dateTag today) (suf.drop (dateTag today).length) = 0 := by
      rw [hs_count] at hprev
      omega
    rcases dropLine_suffix (suf.drop (dateTag today).length) with ⟨⟨X, hX⟩, hD⟩
    have hDle : countOcc (dateTag today) (dropLine (suf.drop (dateTag today).length)) = 0 := by
      have := countOcc_append_right_le (dateTag today) X
        (dropLine (suf.drop (dateTag today).length))
      rw [← hX] at this
      omega
    have haddD : countOcc (dateTag today)
        (compressAddition today rows ++ dropLine (suf.drop (dateTag today).length)) = 1 := by
      rcases hD with hD | ⟨l', hD⟩
      · rw [hD, List.append_nil, hadd]
      · rw [hD]
        rw [countOcc_append f1 (by simp) ?nlcross (compressAddition today rows)]
        case nlcross =>
          intro c hc
          rw [List.head?_cons] at hc
          rw [← Option.some.inj hc]
          exact f4
        rw [hD] at hDle
        rw [hadd]
        omega
    rw [List.append_assoc]
    rw [countOcc_append f1 ?addne ?addcross pre]
    case addne =>
      show compressAddition today rows ++ _ ≠ []
      simp [compressAddition, dateTag]
    case addcross =>
      intro c hc
      have h0 : (compressAddition today rows ++
          dropLine (suf.drop (dateTag today).length)).head? = some '[' := rfl
      rw [h0] at hc
      rw [← Option.some.inj hc]
      exact f3
    rw [hpre0, haddD]
  split
  · -- empty existing summary: the addition alone
    exact le_of_eq hadd
  · -- new-day append branch
    rename_i hlines hocc hsne
    have hocc0 : countOcc (dateTag today) s = 0 := by
      have hfalse : occursL (dateTag today) s = false := by
        simpa using hocc
      exact (occursL_false_iff f1 s).mp hfalse
    have hform : s ++ "\n".data ++ compressAddition today rows =
        s ++ ('\n' :: compressAddition today rows) := by
      rw [List.append_assoc]
      rfl
    rw [hform]
    rw [countOcc_append f1 (by simp) ?nl2 s]
    case nl2 =>
      intro c hc
      rw [List.head?_cons] at hc
      rw [← Option.some.inj hc]
      exact f4
    have hcount : countOcc (dateTag today) ('\n' :: compressAddition today rows) =
        countOcc (dateTag today) (compressAddition today rows) := by
      show countOcc ('[' :: (today ++ [']'])) _ = _
      exact countOcc_cons_ne _ (by decide)
    rw [hocc0, hcount, hadd]

end MemoryTheorems

/-- C4: (1) after any compress call the stored daily summary either is
unchanged (early return) or has length at most the 500-character budget
(truncated from the front when exceeded), so after any number of compress
calls starting within budget the length never exceeds 500; and (2) a
compress call on a day whose tag is already present replaces that day's line
rather than appending a duplicate: the number of date-tag occurrences stays
at most one, provided the date string and logged pet names contain no '['
and no newline. -/
theorem compress_summary_props :
    (∀ (s today : List Char) (rows : List ActRow),
      (compressSummary s today rows).length ≤ 500 ∨ compressSummary s today rows = s) ∧
    (∀ (batches : List (List Char × List ActRow)) (s : List Char),
      s.length ≤ 500 →
      (batches.foldl (fun acc b => compressSummary acc b.1 b.2) s).length ≤ 500) ∧
    (∀ (s today : List Char) (rows : List ActRow),
      cleanB today = true →
      (∀ r ∈ rows, ∀ d, r.data = some d → ∀ nm, d.targetPet = some nm →
        cleanB nm.data = true) →
      countOcc (dateTag today) s ≤ 1 →
      countOcc (dateTag today) (compressSummary s today rows) ≤ 1) := by
  have hstep : ∀ (s today : List Char) (rows : List ActRow),
      (compressSummary s today rows).length ≤ 500 ∨ compressSummary s today rows = s := by
    intro s today rows
    unfold compressSummary
    split
    · exact Or.inr rfl
    · exact Or.inl (length_truncate500 _)
  refine ⟨hstep, ?_, ?_⟩
  · intro batches
    induction batches with
    | nil =>
      intro s hs
      exact hs
    | cons b bs ih =>
      intro s hs
      rw [List.foldl_cons]
      refine ih _ ?_
      rcases hstep s b.1 b.2 with h | h
      · exact h
      · rw [h]
        exact hs
  · intro s today rows htoday hn hprev
    unfold compressSummary
    split
    · exact hprev
    · exact le_trans (countOcc_truncate500 today _)
        (countOcc_compressNewSummary s today rows htoday hn hprev)

theorem compress_summary_props_witness :
    cleanB "2026-10-11".data = true ∧
      countOcc (dateTag "2026-10-11".data)
        (compressSummary [] "2026-10-11".data [⟨"play_toy", none⟩]) ≤ 1 ∧
      ([(("2026-10-11".data : List Char), [(⟨"play_toy", none⟩ : ActRow)])].foldl
        (fun acc b => compressSummary acc b.1 b.2) []).length ≤ 500 :=
  ⟨by decide,
   compress_summary_props.2.2 [] "2026-10-11".data [⟨"play_toy", none⟩]
     (by decide) (by decide) (by decide),
   compress_summary_props.2.1 [("2026-10-11".data, [⟨"play_toy", none⟩])] [] (by decide)⟩

section SafetyLemmas

theorem chEq_false : chEq false = csEq := rfl

theorem chEq_true : chEq true = ciEq := rfl

theorem chEq_refl (ci : Bool) (a : Char) : chEq ci a a = true := by
  cases ci <;> simp [chEq_false, chEq_true, ciEq, csEq]

theorem chEq_symm {ci : Bool} {a b : Char} (h : chEq ci a b = true) : chEq ci b a = true := by
  cases ci <;>
    simp only [chEq_false, chEq_true, ciEq, csEq, beq_iff_eq] at h ⊢ <;>
    exact h.symm

theorem chEq_trans {ci : Bool} {a b c : Char} (h1 : chEq ci a b = true)
    (h2 : chEq ci b c = true) : chEq ci a c = true := by
  cases ci <;>
    simp only [chEq_false, chEq_true, ciEq, csEq, beq_iff_eq] at h1 h2 ⊢ <;>
    exact h1.trans h2

theorem chEq_imp {ciP ciS : Bool} (hci : (!ciS || ciP) = true) {a b : Char}
    (h : chEq ciS a b = true) : chEq ciP a b = true := by
  cases ciS with
  | false =>
    rw [chEq_false] at h
    simp only [csEq, beq_iff_eq] at h
    subst h
    exact chEq_refl ciP a
  | true =>
    have hP : ciP = true := by simpa using hci
    subst hP
    exact h

theorem matchEqv_length {eqv : Char → Char → Bool} :
    ∀ {a b : List Char}, matchEqv eqv a b = true → a.length = b.length
  | [], [], _ => rfl
  | [], _ :: _, h => by simp [matchEqv] at h
  | _ :: _, [], h => by simp [matchEqv] at h
  | _ :: _, _ :: _, h => by
    simp only [matchEqv, Bool.and_eq_true] at h
    simp [List.length_cons, matchEqv_length h.2]

theorem matchEqv_refl (ci : Bool) : ∀ (a : List Char), matchEqv (chEq ci) a a = true
  | [] => rfl
  | c :: cs => by simp [matchEqv, chEq_refl, matchEqv_refl ci cs]

theorem matchEqv_symm {ci : Bool} :
    ∀ {a b : List Char}, matchEqv (chEq ci) a b = true → matchEqv (chEq ci) b a = true
  | [], [], _ => rfl
  | [], _ :: _, h => by simp [matchEqv] at h
  | _ :: _, [], h => by simp [matchEqv] at h
  | _ :: _, _ :: _, h => by
    simp only [matchEqv, Bool.and_eq_true] at h ⊢
    exact ⟨chEq_symm h.1, matchEqv_symm h.2⟩

theorem matchEqv_trans {ci : Bool} :
    ∀ {a b c : List Char}, matchEqv (chEq ci) a b = true →
      matchEqv (chEq ci) b c = true → matchEqv (chEq ci) a c = true
  | [], b, _, h1, h2 => by
    cases b with
    | nil => exact h2
    | cons x xs => simp [matchEqv] at h1
  | _ :: _, b, c, h1, h2 => by
    cases b with
    | nil => simp [matchEqv] at h1
    | cons x xs =>
      cases c with
      | nil => simp [matchEqv] at h2
      | cons y ys =>
        simp only [matchEqv, Bool.and_eq_true] at h1 h2 ⊢
        exact ⟨chEq_trans h1.1 h2.1, matchEqv_trans h1.2 h2.2⟩

theorem matchEqv_imp {ciP ciS : Bool} (hci : (!ciS || ciP) = true) :
    ∀ {a b : List Char}, matchEqv (chEq ciS) a b = true → matchEqv (chEq ciP) a b = true
  | [], [], _ => rfl
  | [], _ :: _, h => by simp [matchEqv] at h
  | _ :: _, [], h => by simp [matchEqv] at h
  | _ :: _, _ :: _, h => by
    simp only [matchEqv, Bool.and_eq_true] at h ⊢
    exact ⟨chEq_imp hci h.1, matchEqv_imp hci h.2⟩

theorem matchEqv_append {eqv : Char → Char → Bool} :
    ∀ {a1 b1 a2 b2 : List Char}, matchEqv eqv a1 b1 = true →
      matchEqv eqv a2 b2 = true → matchEqv eqv (a1 ++ a2) (b1 ++ b2) = true
  | [], [], _, _, _, h2 => h2
  | [], _ :: _, _, _, h1, _ => by simp [matchEqv] at h1
  | _ :: _, [], _, _, h1, _ => by simp [matchEqv] at h1
  | _ :: _, _ :: _, _, _, h1, h2 => by
    simp only [matchEqv, Bool.and_eq_true] at h1
    simp only [List.cons_append, matchEqv, Bool.and_eq_true]
    exact ⟨h1.1, matchEqv_append h1.2 h2⟩

theorem matchEqv_append_inv {eqv : Char → Char → Bool} :
    ∀ {a1 a2 b : List Char}, matchEqv eqv (a1 ++ a2) b = true →
      matchEqv eqv a1 (b.take a1.length) = true ∧
        matchEqv eqv a2 (b.drop a1.length) = true
  | [], _, _, h => ⟨rfl, h⟩
  | _ :: _, _, [], h => by simp [matchEqv] at h
  | a :: as, a2, b :: bs, h => by
    simp only [List.cons_append, matchEqv, Bool.and_eq_true] at h
    have ih := matchEqv_append_inv h.2
    refine ⟨?_, ih.2⟩
    simp only [List.length_cons, List.take_succ_cons, matchEqv, Bool.and_eq_true]
    exact ⟨h.1, ih.1⟩

theorem matchEqv_take {eqv : Char → Char → Bool} :
    ∀ {u v : List Char} (n : Nat), matchEqv eqv u v = true →
      matchEqv eqv (u.take n) (v.take n) = true
  | [], [], _, _ => by simp [List.take_nil, matchEqv]
  | [], _ :: _, _, h => by simp [matchEqv] at h
  | _ :: _, [], _, h => by simp [matchEqv] at h
  | _ :: _, _ :: _, 0, _ => rfl
  | _ :: _, _ :: _, n + 1, h => by
    simp only [matchEqv, Bool.and_eq_true] at h
    simp only [List.take_succ_cons, matchEqv, Bool.and_eq_true]
    exact ⟨h.1, matchEqv_take n h.2⟩

theorem isPrefixEqv_length {eqv : Char → Char → Bool} {p t : List Char}
    (h : isPrefixEqv eqv p t = true) : p.length ≤ t.length := by
  have hl := matchEqv_length h
  rw [List.length_take] at hl
  omega

theorem isPrefixEqv_append_ext {eqv : Char → Char → Bool} {p t : List Char} (u : List Char)
    (h : isPrefixEqv eqv p t = true) : isPrefixEqv eqv p (t ++ u) = true := by
  have hl := isPrefixEqv_length h
  unfold isPrefixEqv at h ⊢
  rwa [List.take_append_of_le_length hl]

theorem isPrefixEqv_of_append_le {eqv : Char → Char → Bool} {p t u : List Char}
    (h : isPrefixEqv eqv p (t ++ u) = true) (hl : p.length ≤ t.length) :
    isPrefixEqv eqv p t = true := by
  unfold isPrefixEqv at h ⊢
  rwa [List.take_append_of_le_length hl] at h

theorem isPrefixEqv_append_split {eqv : Char → Char → Bool} {y1 y2 t : List Char}
    (h : isPrefixEqv eqv (y1 ++ y2) t = true) :
    isPrefixEqv eqv y1 t = true ∧ isPrefixEqv eqv y2 (t.drop y1.length) = true := by
  unfold isPrefixEqv at h
  have h2 := matchEqv_append_inv h
  constructor
  · unfold isPrefixEqv
    have heq : (t.take (y1 ++ y2).length).take y1.length = t.take y1.length := by
      rw [List.take_take, List.length_append]
      congr 1
      omega
    have h21 := h2.1
    rwa [heq] at h21
  · unfold isPrefixEqv
    have heq : (t.take (y1 ++ y2).length).drop y1.length =
        (t.drop y1.length).take y2.length := by
      rw [List.drop_take, List.length_append]
      congr 1
      omega
    have h22 := h2.2
    rwa [heq] at h22

theorem isPrefixEqv_self_append (ci : Bool) (p u : List Char) :
    isPrefixEqv (chEq ci) p (p ++ u) = true := by
  unfold isPrefixEqv
  rw [List.take_left]
  exact matchEqv_refl ci p

theorem isPrefixEqv_transfer {ci : Bool} {p u v : List Char}
    (h : isPrefixEqv (chEq ci) p u = true) (huv : matchEqv (chEq ci) u v = true) :
    isPrefixEqv (chEq ci) p v = true :=
  matchEqv_trans h (matchEqv_take p.length huv)

theorem occursEqv_of_isPrefixEqv {eqv : Char → Char → Bool} {p t : List Char}
    (h : isPrefixEqv eqv p t = true) : occursEqv eqv p t = true := by
  cases t with
  | nil => exact h
  | cons c cs => simp [occursEqv, h]

theorem occursEqv_tail {eqv : Char → Char → Bool} {p : List Char} {c : Char} {cs : List Char}
    (h : occursEqv eqv p (c :: cs) = false) : occursEqv eqv p cs = false := by
  simp only [occursEqv, Bool.or_eq_false_iff] at h
  exact h.2

theorem occursEqv_not_prefix {eqv : Char → Char → Bool} {p t : List Char}
    (h : occursEqv eqv p t = false) : isPrefixEqv eqv p t = false := by
  cases t with
  | nil => exact h
  | cons c cs =>
    simp only [occursEqv, Bool.or_eq_false_iff] at h
    exact h.1

theorem occursEqv_drop {eqv : Char → Char → Bool} {p : List Char} :
    ∀ (k : Nat) {t : List Char}, occursEqv eqv p t = false →
      occursEqv eqv p (t.drop k) = false
  | 0, _, h => h
  | _ + 1, [], h => h
  | k + 1, _ :: _, h => by
    rw [List.drop_succ_cons]
    exact occursEqv_drop k (occursEqv_tail h)

theorem occursEqv_of_isPrefixEqv_drop {eqv : Char → Char → Bool} {p : List Char} :
    ∀ (k : Nat) {t : List Char}, isPrefixEqv eqv p (t.drop k) = true →
      occursEqv eqv p t = true
  | 0, _, h => occursEqv_of_isPrefixEqv h
  | _ + 1, [], h => occursEqv_of_isPrefixEqv h
  | k + 1, _ :: _, h => by
    rw [List.drop_succ_cons] at h
    have hh := occursEqv_of_isPrefixEqv_drop k h
    simp [occursEqv, hh]

theorem occursEqv_append_left {eqv : Char → Char → Bool} {p : List Char} :
    ∀ {A : List Char} (B : List Char), occursEqv eqv p A = true →
      occursEqv eqv p (A ++ B) = true
  | [], B, h => occursEqv_of_isPrefixEqv (isPrefixEqv_append_ext B h)
  | _ :: _, B, h => by
    simp only [occursEqv, Bool.or_eq_true] at h
    rcases h with h | h
    · exact occursEqv_of_isPrefixEqv (isPrefixEqv_append_ext B h)
    · have hh := occursEqv_append_left B h
      simp [occursEqv, hh]

theorem occursEqv_transfer {ci : Bool} {p : List Char} :
    ∀ {u v : List Char}, occursEqv (chEq ci) p u = true →
      matchEqv (chEq ci) u v = true → occursEqv (chEq ci) p v = true
  | [], v, h, huv => by
    cases v with
    | nil => exact h
    | cons x xs => simp [matchEqv] at huv
  | u :: us, v, h, huv => by
    cases v with
    | nil => simp [matchEqv] at huv
    | cons x xs =>
      simp only [occursEqv, Bool.or_eq_true] at h ⊢
      rcases h with h | h
      · exact Or.inl (isPrefixEqv_transfer h huv)
      · have h2 : matchEqv (chEq ci) us xs = true := by
          simp only [matchEqv, Bool.and_eq_true] at huv
          exact huv.2
        exact Or.inr (occursEqv_transfer h h2)

theorem findAlt_some {eqv : Char → Char → Bool} {alts : List (List Char)} {t m : List Char}
    (h : findAlt eqv alts t = some m) :
    m ∈ alts ∧ m ≠ [] ∧ isPrefixEqv eqv m t = true := by
  have hmem := List.mem_of_find?_eq_some h
  have hp := List.find?_some h
  simp only [Bool.and_eq_true, Bool.not_eq_true'] at hp
  refine ⟨hmem, ?_, hp.2⟩
  intro hnil
  subst hnil
  simp [List.isEmpty] at hp

theorem findAlt_none {eqv : Char → Char → Bool} {alts : List (List Char)} {t : List Char}
    (h : findAlt eqv alts t = none) :
    ∀ a ∈ alts, a ≠ [] → isPrefixEqv eqv a t = false := by
  intro a ha hne
  have hcnd := List.find?_eq_none.mp h a ha
  cases hpre : isPrefixEqv eqv a t with
  | false => rfl
  | true =>
    exfalso
    apply hcnd
    cases a with
    | nil => exact absurd rfl hne
    | cons b bs => simp [hpre, List.isEmpty]

theorem replaceGo_skip (eqv : Char → Char → Bool) (alts : List (List Char)) (r : List Char) :
    ∀ (k : Nat) (t : List Char), replaceGo eqv alts r k t = replaceGo eqv alts r 0 (t.drop k)
  | 0, t => by cases t <;> rfl
  | k + 1, [] => by rfl
  | k + 1, c :: cs => by
    show replaceGo eqv alts r k cs = _
    rw [replaceGo_skip eqv alts r k cs, List.drop_succ_cons]

theorem replaceAllAlt_nil (eqv : Char → Char → Bool) (alts : List (List Char))
    (r : List Char) : replaceAllAlt eqv alts r [] = [] := rfl

theorem replaceAllAlt_some {eqv : Char → Char → Bool} {alts : List (List Char)} {r : List Char}
    {c : Char} {cs : List Char} {m : List Char}
    (h : findAlt eqv alts (c :: cs) = some m) (hm : m ≠ []) :
    replaceAllAlt eqv alts r (c :: cs) =
      r ++ replaceAllAlt eqv alts r ((c :: cs).drop m.length) := by
  have hdrop : (c :: cs).drop m.length = cs.drop (m.length - 1) := by
    cases m with
    | nil => exact absurd rfl hm
    | cons a as => simp [List.drop_succ_cons]
  show (match findAlt eqv alts (c :: cs) with
    | some m => r ++ replaceGo eqv alts r (m.length - 1) cs
    | none => c :: replaceGo eqv alts r 0 cs) = _
  rw [h, hdrop]
  show r ++ replaceGo eqv alts r (m.length - 1) cs = _
  rw [replaceGo_skip]
  rfl

theorem replaceAllAlt_none {eqv : Char → Char → Bool} {alts : List (List Char)} {r : List Char}
    {c : Char} {cs : List Char}
    (h : findAlt eqv alts (c :: cs) = none) :
    replaceAllAlt eqv alts r (c :: cs) = c :: replaceAllAlt eqv alts r cs := by
  show (match findAlt eqv alts (c :: cs) with
    | some m => r ++ replaceGo eqv alts r (m.length - 1) cs
    | none => c :: replaceGo eqv alts r 0 cs) = _
  rw [h]
  rfl

theorem replaceAllAlt_id {eqv : Char → Char → Bool} {alts : List (List Char)} (r : List Char) :
    ∀ {t : List Char}, (∀ a ∈ alts, a ≠ [] → occursEqv eqv a t = false) →
      replaceAllAlt eqv alts r t = t
  | [], _ => rfl
  | c :: cs, h => by
    have hfa : findAlt eqv alts (c :: cs) = none := by
      cases hf : findAlt eqv alts (c :: cs) with
      | none => rfl
      | some m =>
        exfalso
        obtain ⟨hm, hne, hpre⟩ := findAlt_some hf
        have habs := occursEqv_not_prefix (h m hm hne)
        rw [habs] at hpre
        simp at hpre
    rw [replaceAllAlt_none hfa]
    congr 1
    exact replaceAllAlt_id r (fun a ha hne => occursEqv_tail (h a ha hne))

/- an occurrence in `A ++ B` lies in `A`, lies in `B`, or spans the border:
then `p = x ++ y` with `x` matching a suffix of `A` and `y` a prefix of `B` -/
theorem occursEqv_append_cases {eqv : Char → Char → Bool} {p : List Char} :
    ∀ (A B : List Char), occursEqv eqv p (A ++ B) = true →
      occursEqv eqv p A = true ∨ occursEqv eqv p B = true ∨
        ∃ x y, p = x ++ y ∧ x ≠ [] ∧ y ≠ [] ∧ x.length ≤ A.length ∧
          matchEqv eqv x (A.drop (A.length - x.length)) = true ∧
          isPrefixEqv eqv y B = true
  | [], _, h => Or.inr (Or.inl h)
  | a :: as, B, h => by
    rw [List.cons_append] at h
    simp only [occursEqv, Bool.or_eq_true] at h
    rcases h with h | h
    · by_cases hlen : p.length ≤ (a :: as).length
      · have h0 : isPrefixEqv eqv p ((a :: as) ++ B) = true := by
          rwa [List.cons_append]
        exact Or.inl (occursEqv_of_isPrefixEqv (isPrefixEqv_of_append_le h0 hlen))
      · push_neg at hlen
        have h2 : isPrefixEqv eqv
            (p.take (a :: as).length ++ p.drop (a :: as).length) ((a :: as) ++ B) = true := by
          rw [List.take_append_drop]
          rwa [List.cons_append]
        have hxlen : (p.take (a :: as).length).length = (a :: as).length := by
          rw [List.length_take]
          omega
        refine Or.inr (Or.inr ⟨p.take (a :: as).length, p.drop (a :: as).length,
          (List.take_append_drop _ _).symm, ?_, ?_, le_of_eq hxlen, ?_, ?_⟩)
        · intro hx
          rw [hx] at hxlen
          simp at hxlen
        · intro hy
          have hl := congrArg List.length hy
          rw [List.length_drop] at hl
          simp only [List.length_nil] at hl
          omega
        · rw [hxlen, Nat.sub_self, List.drop_zero]
          have h3 := (isPrefixEqv_append_split h2).1
          have h4 := isPrefixEqv_of_append_le h3 (le_of_eq hxlen)
          unfold isPrefixEqv at h4
          rwa [hxlen, List.take_length] at h4
        · have h3 := (isPrefixEqv_append_split h2).2
          rwa [hxlen, List.drop_left] at h3
    · rcases occursEqv_append_cases as B h with h1 | h1 | h1
      · have hh : occursEqv eqv p (a :: as) = true := by simp [occursEqv, h1]
        exact Or.inl hh
      · exact Or.inr (Or.inl h1)
      · obtain ⟨x, y, hp_eq, hx, hy, hxlen, hxm, hyB⟩ := h1
        refine Or.inr (Or.inr ⟨x, y, hp_eq, hx, hy, ?_, ?_, hyB⟩)
        · simp only [List.length_cons]
          omega
        · have hs : (a :: as).length - x.length = (as.length - x.length) + 1 := by
            simp only [List.length_cons]
            omega
          rw [hs, List.drop_succ_cons]
          exact hxm

theorem splitCondFree_spec {eqv : Char → Char → Bool} {p : List Char} {alts : List (List Char)}
    {r : List Char} (h : splitCondFree eqv p alts r = true) {k : Nat}
    (hk : k < p.length) (h1 : 1 ≤ k) (hpre : isPrefixEqv eqv (p.drop k) r = true) :
    ∀ m ∈ alts, occursEqv eqv p (p.take k ++ m) = true := by
  intro m hm
  have hall : (!(decide (1 ≤ k) && isPrefixEqv eqv (p.drop k) r) ||
      alts.all (fun m => occursEqv eqv p (p.take k ++ m))) = true :=
    List.all_eq_true.mp h k (List.mem_range.mpr hk)
  rw [Bool.or_eq_true] at hall
  rcases hall with hcon | hall
  · exfalso
    rw [hpre, decide_eq_true h1] at hcon
    simp at hcon
  · exact List.all_eq_true.mp hall m hm

theorem splitCondOwn_spec {eqv : Char → Char → Bool} {p : List Char} {alts : List (List Char)}
    {r : List Char} (h : splitCondOwn eqv p alts r = true) {k : Nat}
    (hk : k < p.length) (h1 : 1 ≤ k) (hpre : isPrefixEqv eqv (p.drop k) r = true) :
    ∀ m ∈ alts, ∃ a2 ∈ alts, a2 ≠ [] ∧ isPrefixEqv eqv a2 (p.take k ++ m) = true := by
  intro m hm
  have hall : (!(decide (1 ≤ k) && isPrefixEqv eqv (p.drop k) r) ||
      alts.all (fun m => alts.any
        (fun a2 => !a2.isEmpty && isPrefixEqv eqv a2 (p.take k ++ m)))) = true :=
    List.all_eq_true.mp h k (List.mem_range.mpr hk)
  rw [Bool.or_eq_true] at hall
  rcases hall with hcon | hall
  · exfalso
    rw [hpre, decide_eq_true h1] at hcon
    simp at hcon
  · have hany := List.all_eq_true.mp hall m hm
    obtain ⟨a2, ha2, hcond⟩ := List.any_eq_true.mp hany
    simp only [Bool.and_eq_true, Bool.not_eq_true'] at hcond
    refine ⟨a2, ha2, ?_, hcond.2⟩
    intro hnil
    subst hnil
    simp [List.isEmpty] at hcond

/- core invariant of the replacement scan: if the scan has consumed a text
prefix matching `x` (a proper nonempty head part of the pattern `p = x ++ y`)
without any alternative matching along the way, then the remaining tail `y`
of the pattern cannot match at the start of the scan output, provided `p`
does not occur in the overall scanned string (or `p` is itself an
alternative), and the non-interference side conditions hold -/
theorem auxNoDangle {ciP ciS : Bool} (hci : (!ciS || ciP) = true)
    {alts : List (List Char)} {r p S : List Char}
    (hnr : occursEqv (chEq ciP) r p = false)
    (hbig : (occursEqv (chEq ciP) p S = false ∧ splitCondFree (chEq ciP) p alts r = true) ∨
            (ciP = ciS ∧ p ∈ alts ∧ splitCondOwn (chEq ciP) p alts r = true)) :
    ∀ (t x' x y : List Char),
      p = x ++ y → x ≠ [] → y ≠ [] →
      matchEqv (chEq ciP) x x' = true →
      (∀ j, j < x'.length → findAlt (chEq ciS) alts (x'.drop j ++ t) = none) →
      x' ++ t = S →
      isPrefixEqv (chEq ciP) y (replaceAllAlt (chEq ciS) alts r t) = false
  | [], x', x, y, hpxy, hx, hy, hxx, hscan, hS => by
    rw [replaceAllAlt_nil]
    cases y with
    | nil => exact absurd rfl hy
    | cons c cs => simp [isPrefixEqv, List.take_nil, matchEqv]
  | c :: cs, x', x, y, hpxy, hx, hy, hxx, hscan, hS => by
    cases hfa : findAlt (chEq ciS) alts (c :: cs) with
    | some m =>
      obtain ⟨hmm, hmne, hmpre⟩ := findAlt_some hfa
      rw [replaceAllAlt_some hfa hmne]
      cases hres : isPrefixEqv (chEq ciP) y
          (r ++ replaceAllAlt (chEq ciS) alts r ((c :: cs).drop m.length)) with
      | false => rfl
      | true =>
        exfalso
        by_cases hylen : y.length ≤ r.length
        · -- the pattern tail ends inside the inserted replacement
          have hyr : isPrefixEqv (chEq ciP) y r = true := isPrefixEqv_of_append_le hres hylen
          have hk1 : 1 ≤ x.length := List.length_pos.mpr hx
          have hy1 : 0 < y.length := List.length_pos.mpr hy
          have hklt : x.length < p.length := by
            rw [hpxy, List.length_append]
            omega
          have hdropk : p.drop x.length = y := by rw [hpxy, List.drop_left]
          have htakek : p.take x.length = x := by rw [hpxy, List.take_left]
          have hmci : matchEqv (chEq ciP) m ((c :: cs).take m.length) = true :=
            matchEqv_imp hci hmpre
          have hbigm : matchEqv (chEq ciP) (x ++ m) (x' ++ (c :: cs).take m.length) = true :=
            matchEqv_append hxx hmci
          rcases hbig with ⟨hfreeS, hsplit⟩ | ⟨hcieq, hpalts, hsplit⟩
          · have hocc := splitCondFree_spec hsplit hklt hk1
              (by rw [hdropk]; exact hyr) m hmm
            rw [htakek] at hocc
            have hocc2 : occursEqv (chEq ciP) p (x' ++ (c :: cs).take m.length) = true :=
              occursEqv_transfer hocc hbigm
            have hocc3 := occursEqv_append_left ((c :: cs).drop m.length) hocc2
            rw [List.append_assoc, List.take_append_drop, hS] at hocc3
            rw [hfreeS] at hocc3
            simp at hocc3
          · obtain ⟨a2, ha2, ha2ne, ha2pre⟩ := splitCondOwn_spec hsplit hklt hk1
              (by rw [hdropk]; exact hyr) m hmm
            rw [htakek] at ha2pre
            have ha2pre2 : isPrefixEqv (chEq ciP) a2
                (x' ++ (c :: cs).take m.length) = true :=
              isPrefixEqv_transfer ha2pre hbigm
            have ha2pre3 := isPrefixEqv_append_ext ((c :: cs).drop m.length) ha2pre2
            rw [List.append_assoc, List.take_append_drop] at ha2pre3
            have hx'len : 0 < x'.length := by
              have hl := matchEqv_length hxx
              have := List.length_pos.mpr hx
              omega
            have hscan0 := hscan 0 hx'len
            rw [List.drop_zero] at hscan0
            have hnone := findAlt_none hscan0 a2 ha2 ha2ne
            have hcieq2 : chEq ciP = chEq ciS := by rw [hcieq]
            rw [hcieq2, hnone] at ha2pre3
            simp at ha2pre3
        · -- the pattern tail is longer than the replacement: the replacement
          -- then matches a prefix of the tail, putting `r` inside `p`
          push_neg at hylen
          rw [← List.take_append_drop r.length y] at hres
          have hsp := isPrefixEqv_append_split hres
          have htl : (y.take r.length).length = r.length := by
            rw [List.length_take]
            omega
          have h1 := isPrefixEqv_of_append_le hsp.1 (le_of_eq htl)
          have h2 : matchEqv (chEq ciP) (y.take r.length) r = true := by
            unfold isPrefixEqv at h1
            rwa [htl, List.take_length] at h1
          have h3 : isPrefixEqv (chEq ciP) r y = true := by
            unfold isPrefixEqv
            exact matchEqv_symm h2
          have h4 : isPrefixEqv (chEq ciP) r (p.drop x.length) = true := by
            rw [hpxy, List.drop_left]
            exact h3
          have h5 := occursEqv_of_isPrefixEqv_drop x.length h4
          rw [hnr] at h5
          simp at h5
    | none =>
      rw [replaceAllAlt_none hfa]
      cases y with
      | nil => exact absurd rfl hy
      | cons c0 y2 =>
        cases hres : isPrefixEqv (chEq ciP) (c0 :: y2)
            (c :: replaceAllAlt (chEq ciS) alts r cs) with
        | false => rfl
        | true =>
          exfalso
          have hres2 : (chEq ciP c0 c &&
              isPrefixEqv (chEq ciP) y2 (replaceAllAlt (chEq ciS) alts r cs)) = true := hres
          rw [Bool.and_eq_true] at hres2
          have hx'len : 0 < x'.length := by
            have hl := matchEqv_length hxx
            have := List.length_pos.mpr hx
            omega
          cases y2 with
          | nil =>
            -- the whole pattern matches here in the scanned string
            have hfull : matchEqv (chEq ciP) p (x' ++ [c]) = true := by
              rw [hpxy]
              exact matchEqv_append hxx (by simp [matchEqv, hres2.1])
            have hpre : isPrefixEqv (chEq ciP) p (x' ++ (c :: cs)) = true := by
              have he : x' ++ (c :: cs) = (x' ++ [c]) ++ cs := by simp
              rw [he]
              unfold isPrefixEqv
              rw [matchEqv_length hfull, List.take_left]
              exact hfull
            rcases hbig with ⟨hfreeS, _⟩ | ⟨hcieq, hpalts, _⟩
            · rw [hS] at hpre
              have hocc := occursEqv_of_isPrefixEqv hpre
              rw [hfreeS] at hocc
              simp at hocc
            · have hscan0 := hscan 0 hx'len
              rw [List.drop_zero] at hscan0
              have hpne : p ≠ [] := by
                rw [hpxy]
                cases x with
                | nil => exact absurd rfl hx
                | cons _ _ => simp
              have hnone := findAlt_none hscan0 p hpalts hpne
              have hcieq2 : chEq ciP = chEq ciS := by rw [hcieq]
              rw [hcieq2, hnone] at hpre
              simp at hpre
          | cons d y3 =>
            have hscan2 : ∀ j, j < (x' ++ [c]).length →
                findAlt (chEq ciS) alts ((x' ++ [c]).drop j ++ cs) = none := by
              intro j hj
              rw [List.length_append, List.length_singleton] at hj
              by_cases hjx : j < x'.length
              · have heq : (x' ++ [c]).drop j ++ cs = x'.drop j ++ (c :: cs) := by
                  rw [List.drop_append_of_le_length (le_of_lt hjx)]
                  simp
                rw [heq]
                exact hscan j hjx
              · have hjeq : j = x'.length := by omega
                subst hjeq
                have heq : (x' ++ [c]).drop x'.length ++ cs = c :: cs := by
                  rw [List.drop_left]
                  rfl
                rw [heq]
                exact hfa
            have hrec := auxNoDangle hci hnr hbig cs (x' ++ [c]) (x ++ [c0]) (d :: y3)
              (by rw [hpxy, List.append_assoc]; rfl)
              (by simp)
              (by simp)
              (matchEqv_append hxx (by simp [matchEqv, hres2.1]))
              hscan2
              (by rw [← hS, List.append_assoc]; rfl)
            rw [hrec] at hres2
            simp at hres2

/- a replacement pass of an entry whose scan is compatible with `ciP` and
which satisfies the free-direction side conditions for `p` cannot introduce
an occurrence of `p` -/
theorem masterFree {ciP ciS : Bool} (hci : (!ciS || ciP) = true)
    {alts : List (List Char)} {r p : List Char}
    (hsc : scFree (chEq ciP) p alts r = true) (hp : p ≠ []) :
    ∀ (t : List Char), occursEqv (chEq ciP) p t = false →
      occursEqv (chEq ciP) p (replaceAllAlt (chEq ciS) alts r t) = false
  | [], h => by rw [replaceAllAlt_nil]; exact h
  | c :: cs, h => by
    have hb := hsc
    simp only [scFree, baseSC, Bool.and_eq_true, Bool.not_eq_true'] at hb
    cases hfa : findAlt (chEq ciS) alts (c :: cs) with
    | none =>
      rw [replaceAllAlt_none hfa]
      have htail := masterFree hci hsc hp cs (occursEqv_tail h)
      cases hpre : isPrefixEqv (chEq ciP) p
          (c :: replaceAllAlt (chEq ciS) alts r cs) with
      | false => simp [occursEqv, hpre, htail]
      | true =>
        exfalso
        cases p with
        | nil => exact absurd rfl hp
        | cons c0 p1 =>
          have hpre2 : (chEq ciP c0 c &&
              isPrefixEqv (chEq ciP) p1 (replaceAllAlt (chEq ciS) alts r cs)) = true := hpre
          rw [Bool.and_eq_true] at hpre2
          cases p1 with
          | nil =>
            have hone : isPrefixEqv (chEq ciP) [c0] (c :: cs) = true := by
              simp [isPrefixEqv, matchEqv, hpre2.1]
            have hocc := occursEqv_of_isPrefixEqv hone
            rw [h] at hocc
            simp at hocc
          | cons d p2 =>
            have haux := auxNoDangle hci hb.1.1.2 (Or.inl ⟨h, hb.2⟩) cs [c] [c0] (d :: p2)
              rfl (by simp) (by simp)
              (by simp [matchEqv, hpre2.1])
              (by
                intro j hj
                rw [List.length_singleton] at hj
                have hj0 : j = 0 := by omega
                subst hj0
                rw [List.drop_zero]
                exact hfa)
              rfl
            rw [haux] at hpre2
            simp at hpre2
    | some m =>
      obtain ⟨hmm, hmne, hmpre⟩ := findAlt_some hfa
      rw [replaceAllAlt_some hfa hmne]
      cases hres : occursEqv (chEq ciP) p
          (r ++ replaceAllAlt (chEq ciS) alts r ((c :: cs).drop m.length)) with
      | false => rfl
      | true =>
        exfalso
        have hrec : occursEqv (chEq ciP) p
            (replaceAllAlt (chEq ciS) alts r ((c :: cs).drop m.length)) = false :=
          masterFree hci hsc hp ((c :: cs).drop m.length) (occursEqv_drop m.length h)
        rcases occursEqv_append_cases r _ hres with h1 | h1 | h1
        · rw [hb.1.1.1] at h1
          simp at h1
        · rw [hrec] at h1
          simp at h1
        · obtain ⟨x, y, hpxy, hx, hy, hxlen, hxm, hyB⟩ := h1
          by_cases hxr : x.length = r.length
          · have hd0 : r.drop (r.length - x.length) = r := by
              rw [hxr, Nat.sub_self, List.drop_zero]
            rw [hd0] at hxm
            have hrp : isPrefixEqv (chEq ciP) r p = true := by
              unfold isPrefixEqv
              have ht : p.take r.length = x := by
                rw [← hxr, hpxy, List.take_left]
              rw [ht]
              exact matchEqv_symm hxm
            have hocc := occursEqv_of_isPrefixEqv hrp
            rw [hb.1.1.2] at hocc
            simp at hocc
          · have hxlt : x.length < r.length := lt_of_le_of_ne hxlen hxr
            have hsuf : sufPre (chEq ciP) r p = true := by
              unfold sufPre
              rw [List.any_eq_true]
              refine ⟨x.length, List.mem_range.mpr hxlt, ?_⟩
              have hk1 : 1 ≤ x.length := List.length_pos.mpr hx
              rw [decide_eq_true hk1]
              have ht : p.take x.length = x := by rw [hpxy, List.take_left]
              rw [ht]
              simp only [Bool.true_and]
              exact matchEqv_symm hxm
            rw [hb.1.2] at hsuf
            simp at hsuf
termination_by t _ => t.length
decreasing_by
all_goals simp only [List.length_drop, List.length_cons]
all_goals try omega
all_goals
  have h9 := List.length_pos.mpr hmne
  omega

/- an entry whose own side conditions hold eliminates every one of its own
alternatives from its output -/
theorem masterOwn {ci : Bool} {alts : List (List Char)} {r p : List Char}
    (hsc : scOwn (chEq ci) p alts r = true) (hpalts : p ∈ alts) (hp : p ≠ []) :
    ∀ (t : List Char), occursEqv (chEq ci) p (replaceAllAlt (chEq ci) alts r t) = false
  | [] => by
    rw [replaceAllAlt_nil]
    cases p with
    | nil => exact absurd rfl hp
    | cons c0 p1 => simp [occursEqv, isPrefixEqv, List.take_nil, matchEqv]
  | c :: cs => by
    have hb := hsc
    simp only [scOwn, baseSC, Bool.and_eq_true, Bool.not_eq_true'] at hb
    have hci : (!ci || ci) = true := by cases ci <;> rfl
    cases hfa : findAlt (chEq ci) alts (c :: cs) with
    | none =>
      rw [replaceAllAlt_none hfa]
      have htail := masterOwn hsc hpalts hp cs
      cases hpre : isPrefixEqv (chEq ci) p
          (c :: replaceAllAlt (chEq ci) alts r cs) with
      | false => simp [occursEqv, hpre, htail]
      | true =>
        exfalso
        cases p with
        | nil => exact absurd rfl hp
        | cons c0 p1 =>
          have hpre2 : (chEq ci c0 c &&
              isPrefixEqv (chEq ci) p1 (replaceAllAlt (chEq ci) alts r cs)) = true := hpre
          rw [Bool.and_eq_true] at hpre2
          cases p1 with
          | nil =>
            have hone : isPrefixEqv (chEq ci) [c0] (c :: cs) = true := by
              simp [isPrefixEqv, matchEqv, hpre2.1]
            have hnone := findAlt_none hfa [c0] hpalts (by simp)
            rw [hnone] at hone
            simp at hone
          | cons d p2 =>
            have haux := auxNoDangle hci hb.1.1.2 (Or.inr ⟨rfl, hpalts, hb.2⟩)
              cs [c] [c0] (d :: p2)
              rfl (by simp) (by simp)
              (by simp [matchEqv, hpre2.1])
              (by
                intro j hj
                rw [List.length_singleton] at hj
                have hj0 : j = 0 := by omega
                subst hj0
                rw [List.drop_zero]
                exact hfa)
              rfl
            rw [haux] at hpre2
            simp at hpre2
    | some m =>
      obtain ⟨hmm, hmne, hmpre⟩ := findAlt_some hfa
      rw [replaceAllAlt_some hfa hmne]
      cases hres : occursEqv (chEq ci) p
          (r ++ replaceAllAlt (chEq ci) alts r ((c :: cs).drop m.length)) with
      | false => rfl
      | true =>
        exfalso
        have hrec : occursEqv (chEq ci) p
            (replaceAllAlt (chEq ci) alts r ((c :: cs).drop m.length)) = false :=
          masterOwn hsc hpalts hp ((c :: cs).drop m.length)
        rcases occursEqv_append_cases r _ hres with h1 | h1 | h1
        · rw [hb.1.1.1] at h1
          simp at h1
        · rw [hrec] at h1
          simp at h1
        · obtain ⟨x, y, hpxy, hx, hy, hxlen, hxm, hyB⟩ := h1
          by_cases hxr : x.length = r.length
          · have hd0 : r.drop (r.length - x.length) = r := by
              rw [hxr, Nat.sub_self, List.drop_zero]
            rw [hd0] at hxm
            have hrp : isPrefixEqv (chEq ci) r p = true := by
              unfold isPrefixEqv
              have ht : p.take r.length = x := by
                rw [← hxr, hpxy, List.take_left]
              rw [ht]
              exact matchEqv_symm hxm
            have hocc := occursEqv_of_isPrefixEqv hrp
            rw [hb.1.1.2] at hocc
            simp at hocc
          · have hxlt : x.length < r.length := lt_of_le_of_ne hxlen hxr
            have hsuf : sufPre (chEq ci) r p = true := by
              unfold sufPre
              rw [List.any_eq_true]
              refine ⟨x.length, List.mem_range.mpr hxlt, ?_⟩
              have hk1 : 1 ≤ x.length := List.length_pos.mpr hx
              rw [decide_eq_true hk1]
              have ht : p.take x.length = x := by rw [hpxy, List.take_left]
              rw [ht]
              simp only [Bool.true_and]
              exact matchEqv_symm hxm
            rw [hb.1.2] at hsuf
            simp at hsuf
termination_by t => t.length
decreasing_by
all_goals simp only [List.length_drop, List.length_cons]
all_goals try omega
all_goals
  have h9 := List.length_pos.mpr hmne
  omega

theorem applyTable_cons (e : SubstEntry) (rest : List SubstEntry) (t : List Char) :
    applyTable (e :: rest) t = applyTable rest (applyEntry e t) := rfl

theorem applyTable_append (t1 t2 : List SubstEntry) (s : List Char) :
    applyTable (t1 ++ t2) s = applyTable t2 (applyTable t1 s) := by
  simp [applyTable, List.foldl_append]

theorem wfEntry_spec {e : SubstEntry} (h : wfEntry e = true) :
    e.repl ≠ [] ∧ ∀ a ∈ e.alts, a ≠ [] := by
  simp only [wfEntry, Bool.and_eq_true, Bool.not_eq_true'] at h
  constructor
  · intro hnil
    rw [hnil] at h
    simp [List.isEmpty] at h
  · intro a ha
    have hh := List.all_eq_true.mp h.2 a ha
    simp only [Bool.not_eq_true'] at hh
    intro hnil
    subst hnil
    simp [List.isEmpty] at hh

theorem presOK_preserves {ciP : Bool} {p : List Char} (hp : p ≠ []) :
    ∀ (rest : List SubstEntry) (t : List Char), presOK ciP p rest = true →
      occursEqv (chEq ciP) p t = false →
      occursEqv (chEq ciP) p (applyTable rest t) = false
  | [], _, _, h => h
  | e :: rest, t, hpres, h => by
    simp only [presOK, Bool.and_eq_true] at hpres
    rw [applyTable_cons]
    refine presOK_preserves hp rest _ hpres.2 ?_
    unfold applyEntry
    exact masterFree hpres.1.1.2 hpres.1.2 hp t h

theorem chainOK_patternFree :
    ∀ (tbl : List SubstEntry), chainOK tbl = true →
      ∀ (t : List Char), patternFree tbl (applyTable tbl t) = true
  | [], _, _ => rfl
  | e :: rest, hch, t => by
    simp only [chainOK, Bool.and_eq_true] at hch
    rw [applyTable_cons]
    have hPF : patternFree (e :: rest) (applyTable rest (applyEntry e t)) =
        (e.alts.all (fun a => !(occursEqv (chEq e.ci) a (applyTable rest (applyEntry e t)))) &&
          patternFree rest (applyTable rest (applyEntry e t))) := rfl
    rw [hPF, Bool.and_eq_true]
    constructor
    · rw [List.all_eq_true]
      intro a ha
      have hwf := wfEntry_spec hch.1.1.1
      have hane : a ≠ [] := hwf.2 a ha
      have hown : scOwn (chEq e.ci) a e.alts e.repl = true :=
        List.all_eq_true.mp hch.1.1.2 a ha
      have h1 : occursEqv (chEq e.ci) a (applyEntry e t) = false := by
        unfold applyEntry
        exact masterOwn hown ha hane t
      have hpres : presOK e.ci a rest = true := List.all_eq_true.mp hch.1.2 a ha
      have h2 := presOK_preserves hane rest (applyEntry e t) hpres h1
      show (!(occursEqv (chEq e.ci) a (applyTable rest (applyEntry e t)))) = true
      rw [h2]
      rfl
    · exact chainOK_patternFree rest hch.2 (applyEntry e t)

theorem patternFree_applyTable_id :
    ∀ (tbl : List SubstEntry) (t : List Char),
      patternFree tbl t = true → applyTable tbl t = t
  | [], _, _ => rfl
  | e :: rest, t, hpf => by
    have hPF : patternFree (e :: rest) t =
        (e.alts.all (fun a => !(occursEqv (chEq e.ci) a t)) && patternFree rest t) := rfl
    rw [hPF, Bool.and_eq_true] at hpf
    rw [applyTable_cons]
    have hid : applyEntry e t = t := by
      unfold applyEntry
      apply replaceAllAlt_id
      intro a ha _
      have hh := List.all_eq_true.mp hpf.1 a ha
      simp only [Bool.not_eq_true'] at hh
      exact hh
    rw [hid]
    exact patternFree_applyTable_id rest t hpf.2

/- the full filter is the sequential application of the concatenated
substitution tables (the hallucination pass is the identity) -/
theorem safetyFilter_eq_applyTable (known : List (List Char)) (t petId : List Char) :
    safetyFilter known t petId = applyTable safetyTable t := by
  unfold safetyFilter filterWorldview filterHallucination filterAwakening safetyTable
  rw [applyTable_append]

end SafetyLemmas

/-- C8: algebraic properties of the safety filter. (1) No string matching a
configured filter pattern (any alternative of any row of the awakening or
worldview tables, read with that row's case sensitivity) occurs as a
substring of the filtered output; (2) if no pattern matches the input, the
filter returns the input unchanged; (3) the filter is idempotent. Totality
(never raises) is inherent in the embedding: `safetyFilter` is a total
function. -/
theorem safetyFilter_algebra :
    ∀ (known : List (List Char)) (t petId : List Char),
      patternFree safetyTable (safetyFilter known t petId) = true ∧
      (patternFree safetyTable t = true → safetyFilter known t petId = t) ∧
      safetyFilter known (safetyFilter known t petId) petId = safetyFilter known t petId := by
  have hchain : chainOK safetyTable = true := by decide
  intro known t petId
  have h1 : patternFree safetyTable (safetyFilter known t petId) = true := by
    rw [safetyFilter_eq_applyTable]
    exact chainOK_patternFree safetyTable hchain t
  refine ⟨h1, ?_, ?_⟩
  · intro hfree
    rw [safetyFilter_eq_applyTable]
    exact patternFree_applyTable_id safetyTable t hfree
  · rw [safetyFilter_eq_applyTable known (safetyFilter known t petId) petId]
    exact patternFree_applyTable_id safetyTable _ h1

theorem safetyFilter_algebra_witness :
    patternFree safetyTable "hello Pix".data = true ∧
      safetyFilter [] "hello Pix".data "p1".data = "hello Pix".data :=
  ⟨by decide, (safetyFilter_algebra [] "hello Pix".data "p1".data).2.1 (by decide)⟩

/-- C10: the safety filter's output is independent of the pet identity being
filtered: the hallucination pass consults no per-pet state (it returns its
input unchanged), so for any two pet ids the results coincide. -/
theorem safetyFilter_petId_independent :
    ∀ (known : List (List Char)) (t p q : List Char),
      safetyFilter known t p = safetyFilter known t q :=
  fun _ _ _ _ => rfl

/-- C1: refuted on the code — for the input 我是AI，今天和Zorblax玩了 with
known-pet registry {小白} (which does not contain Zorblax), the filter
removes the matched awakening phrase 我是AI but the fabricated name Zorblax
survives verbatim in the output: `filterHallucination` computes the known
name set and then returns its input unchanged, so no named-entity
replacement ever happens, contradicting the claimed Scenario E behaviour. -/
theorem hallucination_name_not_removed :
    occursEqv csEq "我是AI".data
        (safetyFilter ["小白".data] "我是AI，今天和Zorblax玩了".data "p1".data) = false ∧
      occursEqv csEq "Zorblax".data
        (safetyFilter ["小白".data] "我是AI，今天和Zorblax玩了".data "p1".data) = true ∧
      List.contains ["小白".data] "Zorblax".data = false := by
  decide

end AiPet
